import Mathlib

/-!
# Verification of the DAX source-analysis engine

Shallow embedding of the analysis engine of the `dax-language` repository
(exclusion scanner, scope analyzer, reference extractor, diagnostics engine,
signature resolver, symbol table, parse cache), together with proofs and
refutations of the specification claims.

Conventions of the embedding:
* Source text is a `List Char`; offsets are `Nat` character offsets from the
  start of the document.  The editor positions `(line, character)` used by the
  source are produced from offsets by `positionAt`, which is strictly monotone
  (hence injective) on offsets that lie inside the document, so ranges are
  represented by their start/stop offsets.
* JavaScript numbers that can become negative (parenthesis depth counters,
  brace depth counters) are embedded as `Int`; all other counters are `Nat`.
* The regular expressions of the source are hand-compiled to matchers.
  Each scanned pattern of the source is deterministic (every quantifier in it
  is forced by the character class that follows), so each matcher computes the
  unique JS match length at a given start offset; `scanAll` reproduces the
  semantics of repeated `exec` with the `g` flag (leftmost match at or after
  the previous match end, advancing by the match length).
* Character classes are the ASCII parts of the JS classes `\s`, `\w`,
  `[A-Z_]`/`[A-Z0-9_]` with the `i` flag; all analysed texts are ASCII.
-/

namespace Dax

/-! ## Character-class primitives -/

/-- ASCII part of the JS regex class `\s` (whitespace). -/
def isWs (c : Char) : Bool :=
  c = ' ' || c = '\t' || c = '\n' || c = '\r' || c = '\x0b' || c = '\x0c'

/-- JS regex class `\w` (word character), used by the `\b` boundary. -/
def isWordChar (c : Char) : Bool :=
  ('A' ≤ c && c ≤ 'Z') || ('a' ≤ c && c ≤ 'z') || ('0' ≤ c && c ≤ '9') || c = '_'

/-- First character of an identifier: class `[A-Z_]` with the `i` flag. -/
def isIdStart (c : Char) : Bool :=
  ('A' ≤ c && c ≤ 'Z') || ('a' ≤ c && c ≤ 'z') || c = '_'

/-- Subsequent identifier character: class `[A-Z0-9_]` with the `i` flag. -/
def isIdChar (c : Char) : Bool :=
  isIdStart c || ('0' ≤ c && c ≤ '9')

/-- Identifier character of function names: class `[A-Z0-9_.]` with `i`. -/
def isFnChar (c : Char) : Bool :=
  isIdChar c || c = '.'

/-- ASCII upper-casing, the fragment of JS `toUpperCase` the analyser needs. -/
def upChar (c : Char) : Char :=
  if 'a' ≤ c && c ≤ 'z' then Char.ofNat (c.toNat - 32) else c

/-- `toUpperCase` on a character list. -/
def upper (s : List Char) : List Char := s.map upChar

/-- Case-insensitive character equality (`i` flag). -/
def ciEq (a b : Char) : Bool := upChar a = upChar b

/-- JS `String.prototype.trim` (ASCII whitespace). -/
def trim (s : List Char) : List Char :=
  ((s.dropWhile isWs).reverse.dropWhile isWs).reverse

/-- Character of `text` at offset `i`, or `none` past the end. -/
def charAt (text : List Char) (i : Nat) : Option Char := text[i]?

/-- Does the character at offset `i` satisfy `p`?  Out of range counts as no,
matching JS indexing returning `undefined`. -/
def testAt (p : Char → Bool) (text : List Char) (i : Nat) : Bool :=
  match charAt text i with
  | some c => p c
  | none => false

/-- A JS `\b` word boundary holds immediately before offset `i`. -/
def boundaryAt (text : List Char) (i : Nat) : Bool :=
  (if i = 0 then false else testAt isWordChar text (i - 1)) ≠ testAt isWordChar text i

/-- Slice `text[i .. i+len)`, the JS `substring` of a known-good span. -/
def slice (text : List Char) (i len : Nat) : List Char :=
  (text.drop i).take len

/-- JS `substring(a, b)`: swaps its arguments when `a > b` and clamps. -/
def substringJS (text : List Char) (a b : Nat) : List Char :=
  if a ≤ b then (text.drop a).take (b - a) else (text.drop b).take (a - b)

/-- Number of consecutive characters of `text` satisfying `p` from offset `i`. -/
def countWhile (p : Char → Bool) (text : List Char) (i : Nat) : Nat :=
  ((text.drop i).takeWhile p).length

/-- Case-insensitive match of the literal `pat` at offset `i`. -/
def ciMatchAt (text pat : List Char) (i : Nat) : Bool :=
  (slice text i pat.length).length = pat.length &&
    ((slice text i pat.length).zip pat).all fun q => ciEq q.1 q.2

/-- Exact match of the literal `pat` at offset `i`. -/
def litMatchAt (text pat : List Char) (i : Nat) : Bool :=
  slice text i pat.length = pat

/-- Search loop of `findLitFrom`: first offset from `j` upward (up to the
text length) where the literal occurs. -/
def findLitGo (text pat : List Char) : Nat → Nat → Option Nat
  | 0, _ => none
  | fuel + 1, j =>
    if text.length < j then none
    else if litMatchAt text pat j then some j
    else findLitGo text pat fuel (j + 1)

/-- Smallest offset `j ≥ i` where the literal `pat` occurs, if any. -/
def findLitFrom (text pat : List Char) (i : Nat) : Option Nat :=
  findLitGo text pat (text.length + 1 - i) i

/-- Smallest offset `j ≥ i` holding character `c`, if any (JS `indexOf`). -/
def findCharFrom (text : List Char) (c : Char) (i : Nat) : Option Nat :=
  findLitFrom text [c] i

/-- JS `String.prototype.indexOf` of `pat` inside `s` (from the start). -/
def strIndexOf (s pat : List Char) : Option Nat := findLitFrom s pat 0

/-- Greatest offset `j ≤ i` holding character `c` (JS `lastIndexOf(c, i)`),
as the source's `-1` sentinel convention. -/
def lastIndexOfLe (text : List Char) (c : Char) (i : Nat) : Int :=
  match ((List.range (i + 1)).filter fun j => decide (charAt text j = some c)).getLast? with
  | some j => (j : Int)
  | none => -1

/-- The source's `getNextNonWhitespace`: first non-whitespace character at or
after `startIndex`, with its offset. -/
def getNextNonWhitespace (text : List Char) (startIndex : Nat) : Option (Char × Nat) :=
  let j := startIndex + countWhile isWs text startIndex
  match charAt text j with
  | some c => some (c, j)
  | none => none

/-! ## Generic scanner

`scanAllGo m text fuel i` replays a JS `while ((match = pattern.exec(text)))`
loop: it tries the matcher at every offset from `i` upward and, on a match of
length `L`, records it and resumes at `i + L` (all embedded patterns have
`L ≥ 1`; `max L 1` guards the recursion the way the JS engine guards
zero-length matches). -/

/-- One scan step structure: start offset, length, and pattern payload. -/
structure RawMatch (α : Type) where
  idx : Nat
  len : Nat
  val : α
  deriving Repr, DecidableEq

def scanAllGo {α : Type} (m : List Char → Nat → Option (Nat × α)) (text : List Char) :
    Nat → Nat → List (RawMatch α)
  | 0, _ => []
  | fuel + 1, i =>
    if i < text.length then
      match m text i with
      | some (l, a) => ⟨i, l, a⟩ :: scanAllGo m text fuel (i + max l 1)
      | none => scanAllGo m text fuel (i + 1)
    else []

/-- All matches of pattern `m` over `text`, in order, non-overlapping. -/
def scanAll {α : Type} (m : List Char → Nat → Option (Nat × α)) (text : List Char) :
    List (RawMatch α) :=
  scanAllGo m text (text.length + 1) 0

theorem scanAllGo_sound {α : Type} (m : List Char → Nat → Option (Nat × α))
    (text : List Char) (fuel i : Nat) :
    ∀ r ∈ scanAllGo m text fuel i, i ≤ r.idx ∧ m text r.idx = some (r.len, r.val) := by
  induction fuel generalizing i with
  | zero => simp [scanAllGo]
  | succ fuel ih =>
    intro r hr
    simp only [scanAllGo] at hr
    by_cases hi : i < text.length
    · simp only [if_pos hi] at hr
      rcases hm : m text i with _ | ⟨l, a⟩
      · rw [hm] at hr
        rcases ih (i + 1) r hr with ⟨h1, h2⟩
        exact ⟨by omega, h2⟩
      · rw [hm] at hr
        rcases List.mem_cons.mp hr with h | h
        · subst h; exact ⟨Nat.le_refl _, hm⟩
        · rcases ih (i + max l 1) r h with ⟨h1, h2⟩
          exact ⟨by omega, h2⟩
    · simp [if_neg hi] at hr

theorem scanAll_sound {α : Type} (m : List Char → Nat → Option (Nat × α))
    (text : List Char) :
    ∀ r ∈ scanAll m text, m text r.idx = some (r.len, r.val) :=
  fun r hr => (scanAllGo_sound m text _ 0 r hr).2

/-! ## Exclusion Scanner

Embeds `findExclusionRanges` of `dax.document.parser.ts`: three regex passes
(`(?:\/\/|--)[^\n]*`, `\/\*[\s\S]*?\*\/`, `"(?:[^"\\]|\\.)*"`) whose matches
are collected as `{start, end}` ranges and sorted by start offset. -/

/-- `{start, end}` character-offset range (`end` is exclusive). -/
structure ExclusionRange where
  start : Nat
  stop : Nat
  deriving Repr, DecidableEq

/-- Matcher for `(?:\/\/|--)[^\n]*`: a comment leader then the rest of the
line (greedy `[^\n]*`). -/
def lineCommentMatch (text : List Char) (i : Nat) : Option (Nat × Unit) :=
  if (litMatchAt text ['/', '/'] i || litMatchAt text ['-', '-'] i) then
    some (2 + countWhile (fun c => c ≠ '\n') text (i + 2), ())
  else none

/-- Matcher for `\/\*[\s\S]*?\*\/`: `/*` then the lazily nearest `*/`.
No closing `*/` means no match at all (the JS regex fails, it does not
produce an unbounded match). -/
def blockCommentMatch (text : List Char) (i : Nat) : Option (Nat × Unit) :=
  if litMatchAt text ['/', '*'] i then
    match findLitFrom text ['*', '/'] (i + 2) with
    | some j => some (j + 2 - i, ())
    | none => none
  else none

/-- Body scan of the string-literal regex `"(?:[^"\\]|\\.)*"` starting after
the opening quote: a backslash consumes the next character unless it is a
line terminator (JS `.`), and the first bare `"` closes the literal.  Returns
the offset one past the closing quote.  An unterminated literal fails. -/
def stringBodyEnd (text : List Char) : Nat → Nat → Option Nat
  | 0, _ => none
  | fuel + 1, j =>
    match charAt text j with
    | none => none
    | some c =>
      if c = '"' then some (j + 1)
      else if c = '\\' then
        match charAt text (j + 1) with
        | some d => if d = '\n' || d = '\r' then none else stringBodyEnd text fuel (j + 2)
        | none => none
      else stringBodyEnd text fuel (j + 1)

/-- Matcher for `"(?:[^"\\]|\\.)*"`. -/
def stringLitMatch (text : List Char) (i : Nat) : Option (Nat × Unit) :=
  if charAt text i = some '"' then
    match stringBodyEnd text (text.length + 1) (i + 1) with
    | some j => some (j - i, ())
    | none => none
  else none

/-- Insert a range into a list sorted by `start` (the `sort` of the source;
the comparator is `a.start - b.start` and equal keys keep relative order). -/
def insertByStart (r : ExclusionRange) : List ExclusionRange → List ExclusionRange
  | [] => [r]
  | x :: xs => if r.start < x.start then r :: x :: xs else x :: insertByStart r xs

/-- Stable insertion sort by `start`, embedding `ranges.sort((a, b) => a.start - b.start)`. -/
def sortByStart (l : List ExclusionRange) : List ExclusionRange :=
  l.foldr insertByStart []

/-- `findExclusionRanges`: line comments, block comments and string literals,
as `{start, end}` offset ranges sorted by start. -/
def findExclusionRanges (text : List Char) : List ExclusionRange :=
  sortByStart <|
    ((scanAll lineCommentMatch text).map fun r => ⟨r.idx, r.idx + r.len⟩) ++
    ((scanAll blockCommentMatch text).map fun r => ⟨r.idx, r.idx + r.len⟩) ++
    ((scanAll stringLitMatch text).map fun r => ⟨r.idx, r.idx + r.len⟩)

/-- `isInExclusionRange`: the span `[index, index+length)` overlaps some
exclusion range (`index < range.end && index + length > range.start`). -/
def isInExclusionRange (index length : Nat) (ranges : List ExclusionRange) : Bool :=
  ranges.any fun r => index < r.stop && index + length > r.start

/-! ## Scope Analyzer

Embeds `findScopeBlocks` and `runScopeDiagnostics` of
`dax.diagnostics.scope.ts`. -/

/-- The four structural boundary keywords. -/
inductive BlockType where
  | VAR | RETURN | DEFINE | EVALUATE
  deriving Repr, DecidableEq

/-- A scope boundary: keyword type and character offset.  The source also
stores `positionAt(index)`, which is determined by `index`. -/
structure ScopeBlock where
  type : BlockType
  index : Nat
  deriving Repr, DecidableEq

/-- A start/stop character-offset range (stop exclusive), standing for the
`vscode.Range` built from `positionAt` start/end offsets. -/
structure Range where
  start : Nat
  stop : Nat
  deriving Repr, DecidableEq

/-- A diagnostic finding, a pure value. -/
structure Diagnostic where
  range : Range
  message : String
  severity : String
  code : String
  deriving Repr, DecidableEq

/-- Matcher for `\bKW\b` with the `i` flag, for an all-letter keyword. -/
def kwMatch (kw : List Char) (text : List Char) (i : Nat) : Option (Nat × Unit) :=
  if (decide (i = 0) || !testAt isWordChar text (i - 1)) &&
      ciMatchAt text kw i && !testAt isWordChar text (i + kw.length) then
    some (kw.length, ())
  else none

/-- Stable insertion into a list of blocks sorted by `index`, for the
source's `scopeBlocks.sort((a, b) => a.index - b.index)`. -/
def insertByIndex (b : ScopeBlock) : List ScopeBlock → List ScopeBlock
  | [] => [b]
  | x :: xs => if b.index < x.index then b :: x :: xs else x :: insertByIndex b xs

/-- Stable insertion sort by `index`. -/
def sortByIndex (l : List ScopeBlock) : List ScopeBlock :=
  l.foldr insertByIndex []

/-- One keyword scan of `findScopeBlocks`: all non-excluded occurrences of
`\bKW\b`, tagged with the block type.  The exclusion test of the source,
`!(end <= r.start || start >= r.end)`, is the same overlap condition as
`isInExclusionRange`. -/
def scanKeyword (t : BlockType) (kw : List Char) (text : List Char)
    (exclusionRanges : List ExclusionRange) : List ScopeBlock :=
  ((scanAll (kwMatch kw) text).filter fun r =>
      !isInExclusionRange r.idx r.len exclusionRanges).map fun r => ⟨t, r.idx⟩

/-- `findScopeBlocks` (diagnostics module): DEFINE, EVALUATE, VAR and RETURN
occurrences outside exclusion ranges, sorted by offset. -/
def findScopeBlocks (text : List Char) (exclusionRanges : List ExclusionRange) :
    List ScopeBlock :=
  sortByIndex <|
    scanKeyword .DEFINE ['D','E','F','I','N','E'] text exclusionRanges ++
    scanKeyword .EVALUATE ['E','V','A','L','U','A','T','E'] text exclusionRanges ++
    scanKeyword .VAR ['V','A','R'] text exclusionRanges ++
    scanKeyword .RETURN ['R','E','T','U','R','N'] text exclusionRanges

/-- `getParenDepth(0, endIndex)`: net count of `(` minus `)` over
`text[0 .. endIndex)`.  JS counters go negative, hence `Int`. -/
def getParenDepth (text : List Char) (endIndex : Nat) : Int :=
  (text.take endIndex).foldl
    (fun d c => if c = '(' then d + 1 else if c = ')' then d - 1 else d) 0

/-- `DEFINE…EVALUATE` pairs: each DEFINE block with the first EVALUATE block
after it, as `(start, end)` offsets. -/
def defineEvaluateRanges : List ScopeBlock → List (Nat × Nat)
  | [] => []
  | b :: rest =>
    if b.type = .DEFINE then
      match rest.find? (fun x => x.type = .EVALUATE) with
      | some e => (b.index, e.index) :: defineEvaluateRanges rest
      | none => defineEvaluateRanges rest
    else defineEvaluateRanges rest

/-- `isInDefineBlock`: the VAR offset lies strictly inside some
DEFINE…EVALUATE pair. -/
def isInDefineBlock (ranges : List (Nat × Nat)) (varIndex : Nat) : Bool :=
  ranges.any fun p => p.1 < varIndex && varIndex < p.2

/-- A stacked VAR with its recorded parenthesis depth. -/
structure VarContext where
  block : ScopeBlock
  parenDepth : Int
  deriving Repr, DecidableEq

/-- Pop stack entries (top first) while they satisfy `p`. -/
def popWhile {α : Type} (p : α → Bool) : List α → List α
  | [] => []
  | x :: xs => if p x then popWhile p xs else x :: xs

/-- One step of the VAR/RETURN pairing loop.  The stack's top is the list
head.  DEFINE and EVALUATE blocks are skipped. -/
def scopeStep (text : List Char) (stack : List VarContext) (b : ScopeBlock) :
    List VarContext :=
  match b.type with
  | .VAR => ⟨b, getParenDepth text b.index⟩ :: stack
  | .RETURN =>
    let returnDepth := getParenDepth text b.index
    popWhile (fun v => v.parenDepth ≥ returnDepth) stack
  | _ => stack

/-- The VAR stack left after walking all blocks. -/
def finalVarStack (text : List Char) (blocks : List ScopeBlock) : List VarContext :=
  blocks.foldl (scopeStep text) []

/-- The missing-RETURN diagnostic anchored at a VAR block: the range covers
the three characters of the `VAR` keyword (`position.translate(0, 3)`). -/
def missingReturnDiag (b : ScopeBlock) : Diagnostic :=
  { range := ⟨b.index, b.index + 3⟩
    message := "VAR declaration without corresponding RETURN statement"
    severity := "error"
    code := "missing-return" }

/-- Emission check for one surviving VAR: skip it when inside a
DEFINE…EVALUATE pair, otherwise flag it unless some RETURN block occurs in
the blocks after its own position (located by `findIndex` on the offset). -/
def missingReturnEmit (blocks : List ScopeBlock) (deRanges : List (Nat × Nat))
    (v : VarContext) : Option Diagnostic :=
  if isInDefineBlock deRanges v.block.index then none
  else
    match (match blocks.findIdx? (fun x : ScopeBlock => x.index = v.block.index) with
           | some n => blocks.drop (n + 1)
           | none => blocks).find? (fun x : ScopeBlock => x.type = BlockType.RETURN) with
    | some _ => none
    | none => some (missingReturnDiag v.block)

/-- `runScopeDiagnostics`: walk the blocks pairing VARs with RETURNs by
parenthesis depth, then flag every surviving VAR that is not inside a
DEFINE…EVALUATE pair and has no RETURN block after it.  The JS array stack is
iterated bottom-first, hence `.reverse` of the head-top stack. -/
def runScopeDiagnostics (text : List Char) (blocks : List ScopeBlock) :
    List Diagnostic :=
  (finalVarStack text blocks).reverse.filterMap
    (missingReturnEmit blocks (defineEvaluateRanges blocks))

/-! ## Function-call extraction

Embeds `stripTableConstructors`, `countParameters`, `findMatchingCloseParen`
and `parseFunctionCalls` of `dax.document.parser.ts`. -/

/-- `stripTableConstructors`: drop `{...}` table constructors (each top-level
one replaced by the stand-in `{}`), tracking the doubled-quote string
convention.  An escaped `""` pair inside a string is skipped whole; brace
depth is a JS number that may go negative, hence `Int`. -/
def stripGo : List Char → Bool → Int → List Char
  | [], _, _ => []
  | '"' :: '"' :: rest2, true, braceDepth => stripGo rest2 true braceDepth
  | c :: rest, inString, braceDepth =>
    if c = '"' then
      (if braceDepth = 0 then [c] else []) ++ stripGo rest (!inString) braceDepth
    else if !inString && c = '{' then
      (if braceDepth + 1 = 1 then ['{', '}'] else []) ++ stripGo rest inString (braceDepth + 1)
    else if !inString && c = '}' then
      stripGo rest inString (braceDepth - 1)
    else
      (if braceDepth = 0 then [c] else []) ++ stripGo rest inString braceDepth

/-- `stripTableConstructors` entry point. -/
def stripTableConstructors (input : List Char) : List Char :=
  stripGo input false 0

/-- The fold state of the comma-counting loop of `countParameters`:
`(commaCount, parenDepth, inString)`. -/
def countParamStep (acc : Nat × Int × Bool) (c : Char) : Nat × Int × Bool :=
  let (commas, depth, inString) := acc
  if c = '"' then (commas, depth, !inString)
  else if inString then acc
  else if c = '(' then (commas, depth + 1, inString)
  else if c = ')' then (commas, depth - 1, inString)
  else if c = ',' && depth = 0 then (commas + 1, depth, inString)
  else acc

/-- `countParameters`: strip table constructors from the raw argument text,
trim; empty text has 0 parameters, otherwise top-level commas + 1. -/
def countParameters (text : List Char) (openParenIndex closeParenIndex : Nat) : Nat :=
  let rawArgs := substringJS text (openParenIndex + 1) closeParenIndex
  let sanitizedArgs := trim (stripTableConstructors rawArgs)
  if sanitizedArgs.length = 0 then 0
  else (sanitizedArgs.foldl countParamStep (0, 0, false)).1 + 1

/-- Loop body of `findMatchingCloseParen`: depth-count parens from
`index`, skipping exclusion ranges whole (`index` jumps to `range.end`). -/
def findCloseGo (text : List Char) (excl : List ExclusionRange) :
    Nat → Nat → Nat → Option Nat
  | 0, _, _ => none
  | fuel + 1, depth, index =>
    if index < text.length then
      match excl.find? (fun r => decide (r.start ≤ index) && decide (index < r.stop)) with
      | some r => findCloseGo text excl fuel depth r.stop
      | none =>
        match charAt text index with
        | some '(' => findCloseGo text excl fuel (depth + 1) (index + 1)
        | some ')' =>
          if depth = 1 then some index
          else findCloseGo text excl fuel (depth - 1) (index + 1)
        | _ => findCloseGo text excl fuel depth (index + 1)
    else none

/-- `findMatchingCloseParen`: offset of the `)` matching the `(` at
`openIndex`, or `none` (the JS `-1`) when unmatched. -/
def findMatchingCloseParen (text : List Char) (openIndex : Nat)
    (excl : List ExclusionRange) : Option Nat :=
  findCloseGo text excl (text.length + 1) 1 (openIndex + 1)

/-- A discovered call site: upper-cased name, derived parameter count, and
the identifier range (`range: [functionRange]` in the source). -/
structure FunctionCall where
  name : String
  parameterCount : Nat
  range : List Range
  deriving Repr, DecidableEq

/-- Matcher for `\b([A-Z_][A-Z0-9_.]*)\s*\(` with the `i` flag: an
identifier (dots allowed) then optional whitespace then `(`.  Payload is the
captured identifier. -/
def funcCallMatch (text : List Char) (i : Nat) : Option (Nat × List Char) :=
  if (decide (i = 0) || !testAt isWordChar text (i - 1)) && testAt isIdStart text i then
    let r := 1 + countWhile isFnChar text (i + 1)
    let w := countWhile isWs text (i + r)
    if charAt text (i + r + w) = some '(' then
      some (r + w + 1, slice text i r)
    else none
  else none

/-- `parseFunctionCalls`: every known-catalog identifier followed by `(`,
outside exclusion ranges and with a matching `)`; unmatched calls are
dropped silently. -/
def parseFunctionCalls (knownFunctions : List String) (text : List Char)
    (excl : List ExclusionRange) : List FunctionCall :=
  (scanAll funcCallMatch text).filterMap fun m =>
    let functionName := String.mk (upper m.val)
    if !(knownFunctions.contains functionName) || isInExclusionRange m.idx m.len excl then
      none
    else
      match findMatchingCloseParen text (m.idx + m.len - 1) excl with
      | none => none
      | some closeParenIndex =>
        some { name := functionName
               parameterCount := countParameters text (m.idx + m.len - 1) closeParenIndex
               range := [⟨m.idx, m.idx + m.val.length⟩] }

/-! ## Parameter catalog and arity diagnostics

Embeds `dax.diagnostics.functions.ts`. -/

/-- An entry of the per-function parameter catalog (`dax.parameters.json`). -/
structure FunctionParameter where
  name : String
  type : String
  isOptional : Bool
  isRepeatable : Bool
  deriving Repr, DecidableEq

/-- Catalog entry: function name with its parameter list. -/
structure FunctionMetadata where
  name : String
  parameters : List FunctionParameter
  deriving Repr, DecidableEq

/-- One parameter of the `calculateParameterBounds` loop: count non-optional
into `minParams`, non-repeatable into `maxParams`, and remember whether any
parameter was repeatable. -/
def paramBoundsStep (acc : Nat × Nat × Bool) (param : FunctionParameter) : Nat × Nat × Bool :=
  ((if param.isOptional then acc.1 else acc.1 + 1),
   (if param.isRepeatable then acc.2.1 else acc.2.1 + 1),
   (acc.2.2 || param.isRepeatable))

/-- `calculateParameterBounds`: `minParams` counts non-optional parameters,
`maxParams` counts non-repeatable ones and is `null` (`none`) as soon as any
parameter is repeatable. -/
def calculateParameterBounds (parameters : List FunctionParameter) : Nat × Option Nat :=
  let st := parameters.foldl paramBoundsStep (0, 0, false)
  (st.1, if st.2.2 then none else some st.2.1)

/-- The too-few-parameters message of the source. -/
def tooFewMessage (name : String) (minParams count : Nat) : String :=
  "Function '" ++ name ++ "' requires at least " ++ toString minParams ++
    " parameter" ++ (if minParams ≠ 1 then "s" else "") ++ ", but " ++
    toString count ++ " " ++ (if count ≠ 1 then "were" else "was") ++ " provided"

/-- The too-many-parameters message of the source. -/
def tooManyMessage (name : String) (maxParams count : Nat) : String :=
  "Function '" ++ name ++ "' accepts at most " ++ toString maxParams ++
    " parameter" ++ (if maxParams ≠ 1 then "s" else "") ++ ", but " ++
    toString count ++ " " ++ (if count ≠ 1 then "were" else "was") ++ " provided"

/-- Arity diagnostics for a single call against the catalog. -/
def functionCallDiagnostics (daxParameters : List FunctionMetadata)
    (call : FunctionCall) : List Diagnostic :=
  match daxParameters.find? (fun fn => fn.name = call.name) with
  | none => []
  | some metadata =>
    let bounds := calculateParameterBounds metadata.parameters
    let hasRepeatableParams := metadata.parameters.any (·.isRepeatable)
    (if call.parameterCount < bounds.1 then
      [{ range := call.range.headD ⟨0, 0⟩
         message := tooFewMessage call.name bounds.1 call.parameterCount
         severity := "error", code := "too-few-parameters" }]
    else []) ++
    (if !hasRepeatableParams then
      match bounds.2 with
      | some maxParams =>
        if call.parameterCount > maxParams then
          [{ range := call.range.headD ⟨0, 0⟩
             message := tooManyMessage call.name maxParams call.parameterCount
             severity := "error", code := "too-many-parameters" }]
        else []
      | none => []
    else [])

/-- `runFunctionDiagnostics`: arity findings of every extracted call;
functions absent from the catalog are skipped. -/
def runFunctionDiagnostics (functionCalls : List FunctionCall)
    (daxParameters : List FunctionMetadata) : List Diagnostic :=
  functionCalls.foldl (fun acc call => acc ++ functionCallDiagnostics daxParameters call) []

/-! ## Signature Resolver

Embeds `getParameterIndex`, `getRepeatableStartIndex`, `getActiveIndex` and
`buildDisplayedParams` of the signature-help provider. -/

/-- `getParameterIndex`: top-level comma count of the text between the open
paren and the cursor (depth-tracked; JS depth may go negative). -/
def getParameterIndex (afterOpenParen : List Char) : Nat :=
  (afterOpenParen.foldl
    (fun (acc : Nat × Int) c =>
      if c = '(' then (acc.1, acc.2 + 1)
      else if c = ')' then (acc.1, acc.2 - 1)
      else if c = ',' && acc.2 = 0 then (acc.1 + 1, acc.2)
      else acc)
    (0, 0)).1

/-- `getRepeatableStartIndex`: index of the first repeatable parameter
(`-1` of the source becomes `none`). -/
def getRepeatableStartIndex : List FunctionParameter → Option Nat
  | [] => none
  | p :: rest =>
    if p.isRepeatable then some 0 else (getRepeatableStartIndex rest).map (· + 1)

/-- `getActiveIndex`: displayed active parameter index handling the ellipsis
collapse of repeatable parameters. -/
def getActiveIndex (params : List FunctionParameter) (activeParamIndex : Nat) : Nat :=
  match getRepeatableStartIndex params with
  | none => activeParamIndex
  | some repeatableStart =>
    if activeParamIndex < repeatableStart then activeParamIndex
    else
      let stride := params.length - repeatableStart
      let currentInst := (activeParamIndex - repeatableStart) / stride + 1
      let offset := (activeParamIndex - repeatableStart) % stride
      if stride = 1 then
        if currentInst = 1 then activeParamIndex
        else repeatableStart + 1 + (if currentInst > 2 then 1 else 0)
      else
        if currentInst = 1 then activeParamIndex
        else repeatableStart + 1 + offset

/-- `buildDisplayedParams`: the displayed label list — static parameters,
then the repeatable group expanded once, or collapsed to `...` plus the
current instance's numbered labels. -/
def buildDisplayedParams (params : List FunctionParameter) (activeParamIndex : Nat) :
    List String :=
  if params.length = 0 then []
  else
    match getRepeatableStartIndex params with
    | none => params.map (·.name)
    | some repeatableStart =>
      let staticPart := (params.take repeatableStart).map (·.name)
      let group := params.drop repeatableStart
      if activeParamIndex < repeatableStart then
        staticPart ++ group.map (fun p => p.name ++ "1")
      else
        let stride := params.length - repeatableStart
        let currentInst := (activeParamIndex - repeatableStart) / stride + 1
        if stride = 1 then
          staticPart ++ group.map (fun p => p.name ++ "1") ++
            (if currentInst > 2 then ["..."] else []) ++
            (if currentInst > 1 then group.map (fun p => p.name ++ toString currentInst) else [])
        else
          staticPart ++
            (if currentInst > 1 then ["..."] else group.map (fun p => p.name ++ "1")) ++
            (if currentInst > 1 then group.map (fun p => p.name ++ toString currentInst) else [])

/-! ## Reference Extractor: measures

Embeds `parseMeasures`, `parseMeasureDefinitions`, `parseMeasureReferences`,
`isPrecededByTableName` and `isFollowedByAssignment`. -/

/-- Association-list helpers standing for the insertion-ordered JS `Map`. -/
def assocHas {κ β : Type} [DecidableEq κ] (k : κ) (l : List (κ × β)) : Bool :=
  (l.find? (fun q => decide (q.1 = k))).isSome

def assocGet {κ β : Type} [DecidableEq κ] (k : κ) (l : List (κ × β)) : Option β :=
  (l.find? (fun q => decide (q.1 = k))).map (·.2)

/-- Update the value of the first entry with key `k`, in place. -/
def assocUpdate {κ β : Type} [DecidableEq κ] (k : κ) (f : β → β) :
    List (κ × β) → List (κ × β)
  | [] => []
  | (k', v) :: rest => if k' = k then (k', f v) :: rest else (k', v) :: assocUpdate k f rest

/-- `MeasureInfo`: declaration/usage ranges and the scope from the
definition token to the next definition (reference-only measures have
neither declaration nor scope). -/
structure MeasureInfo where
  name : String
  declarationRange : Option Range
  usageRanges : List Range
  scope : Option Range
  deriving Repr, DecidableEq

/-- Matcher for `\[\s*([^\]]+)\s*\]` (payload: the text between the
brackets, trimmed downstream): `[`, the content up to the next `]`
(non-empty, as `[^\]]+` demands at least one character), then `]`. -/
def bracketTokenMatch (text : List Char) (i : Nat) : Option (Nat × List Char) :=
  if charAt text i = some '[' then
    match findCharFrom text ']' (i + 1) with
    | some k => if i + 1 < k then some (k + 1 - i, slice text (i + 1) (k - (i + 1))) else none
    | none => none
  else none

/-- Matcher for measure definition form 1, `\[\s*([^\]]+)\s*\]\s*:=`. -/
def measureDef1Match (text : List Char) (i : Nat) : Option (Nat × List Char) :=
  match bracketTokenMatch text i with
  | some (blen, content) =>
    let w := countWhile isWs text (i + blen)
    if litMatchAt text [':', '='] (i + blen + w) then some (blen + w + 2, content) else none
  | none => none

/-- Matcher for measure definition form 2,
`\bMEASURE\s+(?:'([^']+)'|([A-Z_][A-Z0-9_]*))\[\s*([^\]]+)\s*\]\s*=`.
Payload is capture group 3 (the measure-name content). -/
def measureDef2Match (text : List Char) (i : Nat) : Option (Nat × List Char) :=
  if (decide (i = 0) || !testAt isWordChar text (i - 1)) &&
      ciMatchAt text ['M','E','A','S','U','R','E'] i then
    let w := countWhile isWs text (i + 7)
    if w = 0 then none
    else
      let p := i + 7 + w
      let bracketPos? : Option Nat :=
        if charAt text p = some '\'' then
          match findCharFrom text '\'' (p + 1) with
          | some j =>
            if decide (p + 1 < j) && charAt text (j + 1) = some '[' then some (j + 1) else none
          | none => none
        else if testAt isIdStart text p then
          let r := 1 + countWhile isIdChar text (p + 1)
          if charAt text (p + r) = some '[' then some (p + r) else none
        else none
      match bracketPos? with
      | none => none
      | some b =>
        match bracketTokenMatch text b with
        | some (blen, content) =>
          let w2 := countWhile isWs text (b + blen)
          if charAt text (b + blen + w2) = some '=' then
            some (b + blen + w2 + 1 - i, content)
          else none
        | none => none
  else none

/-- Matcher for a bare identifier `\b([A-Z_][A-Z0-9_]*)\b` (payload: the
identifier). -/
def identMatch (text : List Char) (i : Nat) : Option (Nat × List Char) :=
  if (decide (i = 0) || !testAt isWordChar text (i - 1)) && testAt isIdStart text i then
    let r := 1 + countWhile isIdChar text (i + 1)
    some (r, slice text i r)
  else none

/-- `isPrecededByTableName`: skip whitespace backwards from the bracket; a
closing `'` means a quoted table, an identifier character immediately before
the bracket (no whitespace skipped) means a bare table. -/
def isPrecededByTableName (text : List Char) (bracketIndex : Nat) : Bool :=
  let tws := ((text.take bracketIndex).reverse.takeWhile isWs).length
  if tws = bracketIndex then false
  else
    let pos := bracketIndex - 1 - tws
    match charAt text pos with
    | some c =>
      if c = '\'' then true
      else isIdChar c && decide (bracketIndex = pos + 1)
    | none => false

/-- `isFollowedByAssignment`: the next non-whitespace character is `:` (a
`:=` head), or a `=` not directly preceded by `:`. -/
def isFollowedByAssignment (text : List Char) (startIndex : Nat) : Bool :=
  match getNextNonWhitespace text startIndex with
  | none => false
  | some (c, j) =>
    if c = ':' then true
    else if c = '=' then decide (0 < j) && !(charAt text (j - 1) = some ':')
    else false

/-- One iteration of `parseMeasureDefinitions`: register a definition with a
scope reaching to the next raw match of the same pattern (the source's
peek-and-reset `exec` trick) or the end of text. -/
def measureDefStep (text : List Char) (excl : List ExclusionRange)
    (measures : List (String × MeasureInfo)) (m : RawMatch (List Char))
    (peek : Option (RawMatch (List Char))) : List (String × MeasureInfo) :=
  if isInExclusionRange m.idx m.len excl then measures
  else
    let measureName := trim m.val
    if measureName = [] then measures
    else
      let match0 := slice text m.idx m.len
      let measureStartIndex := m.idx + (strIndexOf match0 ['[']).getD 0 + 1
      let measureRange : Range := ⟨measureStartIndex, measureStartIndex + measureName.length⟩
      let scopeEndIndex := match peek with | some n => n.idx | none => text.length
      let key := String.mk measureName
      if assocHas key measures then measures
      else
        measures ++ [(key,
          { name := key
            declarationRange := some measureRange
            usageRanges := []
            scope := some ⟨measureRange.start, scopeEndIndex⟩ })]

/-- Fold of `measureDefStep` over the scan list (the peek is the next raw
match of the pattern, matching the iterator semantics of the source). -/
def measureDefsGo (text : List Char) (excl : List ExclusionRange) :
    List (RawMatch (List Char)) → List (String × MeasureInfo) → List (String × MeasureInfo)
  | [], measures => measures
  | m :: rest, measures =>
    measureDefsGo text excl rest (measureDefStep text excl measures m rest.head?)

/-- One iteration of `parseMeasureReferences`. -/
def measureRefStep (text : List Char) (excl : List ExclusionRange)
    (measures : List (String × MeasureInfo)) (m : RawMatch (List Char)) :
    List (String × MeasureInfo) :=
  if isInExclusionRange m.idx m.len excl then measures
  else
    let measureName := trim m.val
    if measureName = [] then measures
    else if isPrecededByTableName text m.idx then measures
    else if isFollowedByAssignment text (m.idx + m.len) then measures
    else
      let measureRange : Range := ⟨m.idx + 1, m.idx + 1 + measureName.length⟩
      let key := String.mk measureName
      if assocHas key measures then
        assocUpdate key
          (fun info => { info with usageRanges := info.usageRanges ++ [measureRange] }) measures
      else
        measures ++ [(key,
          { name := key, declarationRange := none
            usageRanges := [measureRange], scope := none })]

/-- `parseMeasures`: definition form 1, then form 2, then bare references,
accumulated in one insertion-ordered map. -/
def parseMeasures (text : List Char) (excl : List ExclusionRange) :
    List (String × MeasureInfo) :=
  let defs1 := measureDefsGo text excl (scanAll measureDef1Match text) []
  let defs2 := measureDefsGo text excl (scanAll measureDef2Match text) defs1
  (scanAll bracketTokenMatch text).foldl (measureRefStep text excl) defs2

/-! ## Reference Extractor: variables

Embeds the private `findScopeBlocks` of the parser (VAR/RETURN only,
exclusion-filtered), `parseVariableDeclarations`, `parseVariableUsages`,
`findParentMeasure`, `isInsideBrackets` and `isPrecededByQuote`. -/

/-- A discovered variable.  The source also stores `declarationLine` and a
`scope` range on the symbol-table entry; both are determined by the data
kept here and by the scope-block list. -/
structure VariableInfo where
  name : String
  declarationRange : Range
  usageRanges : List Range
  parentMeasure : Option String
  deriving Repr, DecidableEq

/-- The parser's private `findScopeBlocks`: VAR and RETURN occurrences
outside exclusion ranges, sorted by offset. -/
def parserFindScopeBlocks (text : List Char) (excl : List ExclusionRange) :
    List ScopeBlock :=
  sortByIndex <|
    scanKeyword .VAR ['V','A','R'] text excl ++
    scanKeyword .RETURN ['R','E','T','U','R','N'] text excl

/-- `isInsideBrackets`: the last `[` at or before `index` comes after the
last `]` (`lastIndexOf` semantics with the `-1` sentinel). -/
def isInsideBrackets (text : List Char) (index : Nat) : Bool :=
  let lastOpen := lastIndexOfLe text '[' index
  let lastClose := lastIndexOfLe text ']' index
  lastOpen > lastClose && lastOpen ≠ -1

/-- `isPrecededByQuote`. -/
def isPrecededByQuote (text : List Char) (index : Nat) : Bool :=
  decide (0 < index) && charAt text (index - 1) = some '\''

/-- Matcher for `\bVAR\s+([A-Z_][A-Z0-9_]*)\s*=` with the `i` flag.
Payload is the captured variable name. -/
def varDeclMatch (text : List Char) (i : Nat) : Option (Nat × List Char) :=
  if (decide (i = 0) || !testAt isWordChar text (i - 1)) &&
      ciMatchAt text ['V','A','R'] i then
    let w := countWhile isWs text (i + 3)
    if w = 0 then none
    else if testAt isIdStart text (i + 3 + w) then
      let r := 1 + countWhile isIdChar text (i + 3 + w + 1)
      let w2 := countWhile isWs text (i + 3 + w + r)
      if charAt text (i + 3 + w + r + w2) = some '=' then
        some (3 + w + r + w2 + 1, slice text (i + 3 + w) r)
      else none
    else none
  else none

/-- `findParentMeasure`: the first measure (in map insertion order) whose
scope range contains the declaration position (`Range.contains` of the
editor API is inclusive at both ends). -/
def findParentMeasure (measures : List (String × MeasureInfo)) (position : Nat) :
    Option String :=
  (measures.find? fun q =>
    match q.2.scope with
    | some s => decide (s.start ≤ position) && decide (position ≤ s.stop)
    | none => false).map (·.1)

/-- Set the value of key `k` (replace in place, else append), the JS
`Map.set`. -/
def assocSet {κ β : Type} [DecidableEq κ] (k : κ) (v : β) (l : List (κ × β)) : List (κ × β) :=
  if assocHas k l then assocUpdate k (fun _ => v) l else l ++ [(k, v)]

/-- One iteration of `parseVariableDeclarations`.  The accumulator carries
the variable list and the `declaredVars` map from upper-cased name to the
index of the latest declaration with that name (the source stores the
mutable `VariableInfo` object itself). -/
def varDeclStep (text : List Char) (excl : List ExclusionRange)
    (measures : List (String × MeasureInfo))
    (acc : List VariableInfo × List (String × Nat)) (m : RawMatch (List Char)) :
    List VariableInfo × List (String × Nat) :=
  if isInExclusionRange m.idx m.len excl then acc
  else
    let varName := m.val
    let match0 := slice text m.idx m.len
    let varStartIndex := m.idx + (strIndexOf match0 varName).getD 0
    let declarationRange : Range := ⟨varStartIndex, varStartIndex + varName.length⟩
    let parentMeasure := findParentMeasure measures declarationRange.start
    let varInfo : VariableInfo :=
      { name := String.mk varName, declarationRange
        usageRanges := [], parentMeasure }
    (acc.1 ++ [varInfo], assocSet (String.mk (upper varName)) acc.1.length acc.2)

/-- One iteration of `parseVariableUsages`, updating the variable the
`declaredVars` map points at. -/
def varUsageStep (text : List Char) (excl : List ExclusionRange)
    (declaredVars : List (String × Nat))
    (vars : List VariableInfo) (m : RawMatch (List Char)) : List VariableInfo :=
  let identifier := m.val
  match assocGet (String.mk (upper identifier)) declaredVars with
  | none => vars
  | some idx =>
    match vars.get? idx with
    | none => vars
    | some varInfo =>
      if isInExclusionRange m.idx m.len excl || isInsideBrackets text m.idx ||
          isPrecededByQuote text m.idx then vars
      else
        let usageRange : Range := ⟨m.idx, m.idx + identifier.length⟩
        if usageRange.start = varInfo.declarationRange.start then vars
        else
          match getNextNonWhitespace text (m.idx + identifier.length) with
          | some (c, _) =>
            if c = '=' || c = '(' || c = '[' then vars
            else vars.set idx
              { varInfo with usageRanges := varInfo.usageRanges ++ [usageRange] }
          | none => vars.set idx
              { varInfo with usageRanges := varInfo.usageRanges ++ [usageRange] }

/-- `parseVariables`: declarations then usages. -/
def parseVariables (text : List Char) (excl : List ExclusionRange)
    (measures : List (String × MeasureInfo)) : List VariableInfo :=
  let decls := (scanAll varDeclMatch text).foldl (varDeclStep text excl measures) ([], [])
  (scanAll identMatch text).foldl (varUsageStep text excl decls.2) decls.1

/-! ## Reference Extractor: tables and columns

Embeds `parseTableColumns`, `parseTableColumnReferences`,
`parseStandaloneTableReferences` and `addColumnSymbol`. -/

/-- Discovered table: usage ranges, column-name set (insertion-ordered) and
the scope from its first `Table[Column]` match. -/
structure TableInfo where
  name : String
  usageRanges : List Range
  columns : List String
  scope : Range
  deriving Repr, DecidableEq

/-- Payload of a `Table[Column]` match. -/
structure TableColPayload where
  quoted : Bool
  rawName : List Char
  content : List Char
  deriving Repr, DecidableEq

/-- Matcher for `(?:'([^']+)'|(\b[A-Z_][A-Z0-9_]*))\[\s*([^\]]+)\s*\]` with
the `i` flag: a quoted or bare table identifier immediately followed by a
bracketed column token. -/
def tableColMatch (text : List Char) (i : Nat) : Option (Nat × TableColPayload) :=
  let bracket? : Option (Bool × List Char × Nat) :=
    if charAt text i = some '\'' then
      match findCharFrom text '\'' (i + 1) with
      | some j =>
        if decide (i + 1 < j) then some (true, slice text (i + 1) (j - (i + 1)), j + 1)
        else none
      | none => none
    else if (decide (i = 0) || !testAt isWordChar text (i - 1)) && testAt isIdStart text i then
      let r := 1 + countWhile isIdChar text (i + 1)
      some (false, slice text i r, i + r)
    else none
  match bracket? with
  | none => none
  | some (quoted, rawName, b) =>
    if charAt text b = some '[' then
      match bracketTokenMatch text b with
      | some (blen, content) => some (b + blen - i, ⟨quoted, rawName, content⟩)
      | none => none
    else none

/-- Matcher for the per-table standalone pattern
`new RegExp(`\\b${escapeRegex(tableName)}\\b`, 'gi')`: the escaped name is a
literal, matched case-insensitively between two `\b` boundaries. -/
def tableNameMatch (name : List Char) (text : List Char) (i : Nat) : Option (Nat × Unit) :=
  if boundaryAt text i && ciMatchAt text name i && boundaryAt text (i + name.length) then
    some (name.length, ())
  else none

/-- Accumulator of the table/column pass: the table map, the dedupe set of
already-added start offsets (the `line:character` keys of the source are in
bijection with offsets inside the document), and the column ranges recorded
in the symbol table by `addColumnSymbol`. -/
structure TablesAcc where
  tables : List (String × TableInfo)
  addedPositions : List Nat
  columnRanges : List Range
  deriving Repr, DecidableEq

/-- One iteration of `parseTableColumnReferences`. -/
def tableColStep (text : List Char) (excl : List ExclusionRange)
    (acc : TablesAcc) (m : RawMatch TableColPayload) : TablesAcc :=
  if isInExclusionRange m.idx m.len excl then acc
  else
    let tableName := String.mk (trim m.val.rawName)
    let columnName := String.mk (trim m.val.content)
    if tableName = "" || columnName = "" then acc
    else
      let tables1 :=
        if assocHas tableName acc.tables then acc.tables
        else acc.tables ++ [(tableName,
          { name := tableName, usageRanges := [], columns := []
            scope := ⟨m.idx, m.idx + m.len⟩ })]
      let tables2 := assocUpdate tableName
        (fun ti => { ti with columns :=
          if ti.columns.contains columnName then ti.columns else ti.columns ++ [columnName] })
        tables1
      let tableStartIndex := m.idx + (if m.val.quoted then 1 else 0)
      let tableRange : Range := ⟨tableStartIndex, tableStartIndex + m.val.rawName.length⟩
      let posKey := tableRange.start
      let (tables3, added1) :=
        if acc.addedPositions.contains posKey then (tables2, acc.addedPositions)
        else
          (assocUpdate tableName
            (fun ti => { ti with usageRanges := ti.usageRanges ++ [tableRange] }) tables2,
           acc.addedPositions ++ [posKey])
      let columnStartIndex :=
        m.idx + (strIndexOf (slice text m.idx m.len) columnName.toList).getD 0
      { tables := tables3
        addedPositions := added1
        columnRanges := acc.columnRanges ++ [⟨columnStartIndex, columnStartIndex + columnName.length⟩] }

/-- One match of the standalone scan of one table. -/
def standaloneStep (text : List Char) (excl : List ExclusionRange)
    (variablePositions : List Nat) (tableName : String)
    (acc : List (String × TableInfo) × List Nat) (m : RawMatch Unit) :
    List (String × TableInfo) × List Nat :=
  if isInExclusionRange m.idx m.len excl || isInsideBrackets text m.idx then acc
  else
    let posKey := m.idx
    if variablePositions.contains posKey || acc.2.contains posKey then acc
    else
      match getNextNonWhitespace text (m.idx + m.len) with
      | some (c, _) =>
        if c = '(' || c = '=' then acc
        else
          (assocUpdate tableName
            (fun ti => { ti with usageRanges := ti.usageRanges ++ [⟨m.idx, m.idx + m.len⟩] }) acc.1,
           acc.2 ++ [posKey])
      | none =>
        (assocUpdate tableName
          (fun ti => { ti with usageRanges := ti.usageRanges ++ [⟨m.idx, m.idx + m.len⟩] }) acc.1,
         acc.2 ++ [posKey])

/-- `parseStandaloneTableReferences`: for every discovered table, scan the
text for bare occurrences of its name. -/
def parseStandaloneTableReferences (text : List Char) (excl : List ExclusionRange)
    (variablePositions : List Nat) (start : List (String × TableInfo) × List Nat) :
    List (String × TableInfo) × List Nat :=
  (start.1.map (·.1)).foldl
    (fun acc tableName =>
      (scanAll (tableNameMatch tableName.toList) text).foldl
        (standaloneStep text excl variablePositions tableName) acc)
    start

/-- `parseTableColumns`: the `Table[Column]` pass then the standalone-name
pass.  Returns the table map and the recorded column symbol ranges. -/
def parseTableColumns (text : List Char) (excl : List ExclusionRange)
    (vars : List VariableInfo) : List (String × TableInfo) × List Range :=
  let variablePositions :=
    vars.foldl (fun acc v =>
      acc ++ [v.declarationRange.start] ++ v.usageRanges.map (·.start)) []
  let accA := (scanAll tableColMatch text).foldl (tableColStep text excl)
    { tables := [], addedPositions := [], columnRanges := [] }
  let accB := parseStandaloneTableReferences text excl variablePositions
    (accA.tables, accA.addedPositions)
  (accB.1, accA.columnRanges)

/-! ## Diagnostics Engine assembly and `parse`

Embeds `runVariableDiagnostics`, `runDiagnostics` and the cached `parse`
of `DaxDocumentParser`. -/

/-- `runVariableDiagnostics`: a warning for every variable never used. -/
def runVariableDiagnostics (vars : List VariableInfo) : List Diagnostic :=
  vars.filterMap fun variable_ =>
    if variable_.usageRanges.length = 0 then
      some { range := variable_.declarationRange
             message := "Variable '" ++ variable_.name ++ "' is declared but never used"
             severity := "warning"
             code := "unused-variable" }
    else none

/-- `runDiagnostics`: variable, scope and function diagnostics, in order. -/
def runDiagnostics (text : List Char) (vars : List VariableInfo)
    (scopeBlocks : List ScopeBlock) (functionCalls : List FunctionCall)
    (daxParameters : List FunctionMetadata) : List Diagnostic :=
  runVariableDiagnostics vars ++
  runScopeDiagnostics text scopeBlocks ++
  runFunctionDiagnostics functionCalls daxParameters

/-- The full analysis result (`TableColumnMap` of the source, plus the
column symbol ranges recorded in the symbol table). -/
structure ParseResult where
  tables : List (String × TableInfo)
  measures : List (String × MeasureInfo)
  vars : List VariableInfo
  columnRanges : List Range
  exclusionRanges : List ExclusionRange
  diagnostics : List Diagnostic
  functionCalls : List FunctionCall
  deriving Repr, DecidableEq

/-- One full (uncached) analysis pass in the order of the source:
exclusions, measures, variables, tables, function calls, diagnostics.
The function and parameter catalogs are the static JSON inputs. -/
def parseDocument (knownFunctions : List String)
    (daxParameters : List FunctionMetadata) (text : List Char) : ParseResult :=
  let excl := findExclusionRanges text
  let measures := parseMeasures text excl
  let vars := parseVariables text excl measures
  let tablesAndColumns := parseTableColumns text excl vars
  let functionCalls := parseFunctionCalls knownFunctions text excl
  let scopeBlocks := findScopeBlocks text excl
  { tables := tablesAndColumns.1
    measures := measures
    vars := vars
    columnRanges := tablesAndColumns.2
    exclusionRanges := excl
    diagnostics := runDiagnostics text vars scopeBlocks functionCalls daxParameters
    functionCalls := functionCalls }

/-- A text document as the engine sees it: identity, version counter and
content. -/
structure TextDocument where
  uri : String
  version : Nat
  text : List Char
  deriving Repr, DecidableEq

/-- The mutable parser state: the memoized `(uri, version, result)` triple
(the source's three `cached*` fields, which are always set together). -/
structure ParserState where
  cache : Option (String × Nat × ParseResult)
  deriving Repr, DecidableEq

/-- The cached `parse`: return the cached result when both the document
identity and the version match, otherwise re-analyse and memoize.  The
document content plays no part in the hit test. -/
def parse (knownFunctions : List String) (daxParameters : List FunctionMetadata)
    (st : ParserState) (document : TextDocument) : ParseResult × ParserState :=
  match st.cache with
  | some (u, v, r) =>
    if u = document.uri && v = document.version then (r, st)
    else
      let result := parseDocument knownFunctions daxParameters document.text
      (result, ⟨some (document.uri, document.version, result)⟩)
  | none =>
    let result := parseDocument knownFunctions daxParameters document.text
    (result, ⟨some (document.uri, document.version, result)⟩)

/-! ## Symbol Table

Embeds `addSymbol`, `linkParentChild` and `getKey` of
`dax.symbol.table.ts`.  JS objects live in a heap and `children.includes`
compares object identities, so symbols are modelled as an arena addressed by
integer ids: `arena` maps an id to its record and the `symbols` map of the
source becomes the insertion-ordered association list `keys` from key string
to id.  `addSymbol` is always called with a freshly built object literal
(no `parent`, no `children`), which is how the parser uses it. -/

inductive SymbolKind where
  | Variable | Table | Column | Measure
  deriving Repr, DecidableEq

/-- The string value of the `SymbolKind` enum. -/
def kindChars : SymbolKind → List Char
  | .Variable => ['v','a','r','i','a','b','l','e']
  | .Table => ['t','a','b','l','e']
  | .Column => ['c','o','l','u','m','n']
  | .Measure => ['m','e','a','s','u','r','e']

/-- The caller-supplied part of a symbol. -/
structure SymInput where
  name : List Char
  kind : SymbolKind
  tableContext : Option (List Char)
  deriving Repr, DecidableEq

/-- A stored symbol record.  `parent` and `children` hold arena ids. -/
structure SymRec where
  name : List Char
  kind : SymbolKind
  tableContext : Option (List Char)
  parent : Option Nat
  children : List Nat
  deriving Repr, DecidableEq

instance : Inhabited SymRec := ⟨⟨[], .Variable, none, none, []⟩⟩

/-- JS truthiness of the optional `tableContext` string: present and
non-empty. -/
def truthyCtx : Option (List Char) → Bool
  | some c => c ≠ []
  | none => false

/-- `getKey`: `column:CTX:NAME` when a column has a (truthy) table context,
otherwise `kind:NAME`, names upper-cased. -/
def getKey (name : List Char) (kind : SymbolKind) (tableContext : Option (List Char)) :
    List Char :=
  match kind, tableContext with
  | .Column, some ctx =>
    if ctx = [] then kindChars .Column ++ ':' :: upper name
    else kindChars .Column ++ ':' :: upper ctx ++ ':' :: upper name
  | k, _ => kindChars k ++ ':' :: upper name

/-- The symbol-table state: arena of records and the insertion-ordered
key-to-id map. -/
structure SymState where
  len : Nat
  arena : Nat → SymRec
  keys : List (List Char × Nat)

/-- The empty table (`new SymbolTable()` or after `clear()`). -/
def emptySymState : SymState := ⟨0, fun _ => default, []⟩

/-- `linkParentChild`: append the child id to the parent's children unless
already present, and point the child's `parent` at the parent. -/
def linkParentChild (parentId childId : Nat) (st : SymState) : SymState :=
  let p := st.arena parentId
  let pChildren := if p.children.contains childId then p.children else p.children ++ [childId]
  let arena1 := Function.update st.arena parentId { p with children := pChildren }
  let c := arena1 childId
  { st with arena := Function.update arena1 childId { c with parent := some parentId } }

/-- The column-to-table linking loop of the `Table` branch of `addSymbol`:
walk the map values in insertion order and link every column whose context
matches the new table's name case-insensitively. -/
def linkColumnsLoop (tableId : Nat) (tableName : List Char) :
    List (List Char × Nat) → SymState → SymState
  | [], st => st
  | q :: rest, st =>
    let v := st.arena q.2
    if v.kind = .Column && (v.tableContext.map upper) = some (upper tableName) then
      linkColumnsLoop tableId tableName rest (linkParentChild tableId q.2 st)
    else linkColumnsLoop tableId tableName rest st

/-- `addSymbol`: insert (or overwrite) under the composite key, then link
hierarchy — a new column looks its table up, a new table adopts every
matching column already registered. -/
def addSymbol (st : SymState) (s : SymInput) : SymState :=
  let id := st.len
  let fresh : SymRec :=
    { name := s.name, kind := s.kind, tableContext := s.tableContext
      parent := none, children := [] }
  let st1 : SymState :=
    { len := st.len + 1
      arena := Function.update st.arena id fresh
      keys := assocSet (getKey s.name s.kind s.tableContext) id st.keys }
  if s.kind = .Column && truthyCtx s.tableContext then
    match s.tableContext with
    | some ctx =>
      match assocGet (getKey ctx .Table none) st1.keys with
      | some tableId => linkParentChild tableId id st1
      | none => st1
    | none => st1
  else if s.kind = .Table then
    linkColumnsLoop id s.name st1.keys st1
  else st1

/-- The table built by a sequence of `addSymbol` calls from empty. -/
def runSymbolTable (calls : List SymInput) : SymState :=
  calls.foldl addSymbol emptySymState

/-! ## Specification-side definitions

Predicates written from the specification's wording, to be compared with
the behaviour of the embedded code. -/

/-- The missing-RETURN condition as the specification states it: a VAR not
inside a DEFINE…EVALUATE block with no subsequent RETURN at equal-or-shallower
parenthesis depth.  (The specification's extra clause "before the next scope
boundary" could only remove candidate RETURNs, so any input satisfying this
predicate satisfies every reading of the specification.) -/
def specMissingReturn (text : List Char) (blocks : List ScopeBlock) (b : ScopeBlock) : Bool :=
  decide (b.type = .VAR) &&
  !isInDefineBlock (defineEvaluateRanges blocks) b.index &&
  !(blocks.any fun r =>
      decide (r.type = .RETURN) && decide (b.index < r.index) &&
      decide (getParenDepth text r.index ≤ getParenDepth text b.index))

/-- The condition the code actually implements: a VAR not inside a
DEFINE…EVALUATE block with no RETURN block after it at any depth. -/
def codeMissingReturn (blocks : List ScopeBlock) (b : ScopeBlock) : Bool :=
  decide (b.type = .VAR) &&
  !isInDefineBlock (defineEvaluateRanges blocks) b.index &&
  !(blocks.any fun r => decide (r.type = .RETURN) && decide (b.index < r.index))

/-- Parity of the double quotes before position `j`: the in-string flag of
the comma-counting loop, stated positionally. -/
def quoteParityAt (s : List Char) (j : Nat) : Bool :=
  ((s.take j).count '"') % 2 = 1

/-- Parenthesis depth before position `j`, counting only parentheses outside
string literals, stated positionally. -/
def depthOutsideAt (s : List Char) (j : Nat) : Int :=
  ((List.range j).map fun k =>
    if quoteParityAt s k then 0
    else if charAt s k = some '(' then (1 : Int)
    else if charAt s k = some ')' then (-1 : Int)
    else 0).sum

/-- Top-level commas of the specification: commas at parenthesis depth 0 and
outside string literals. -/
def specTopLevelCommaCount (s : List Char) : Nat :=
  ((List.range s.length).filter fun j =>
    charAt s j = some ',' && !quoteParityAt s j && decide (depthOutsideAt s j = 0)).length

/-- Instance number of the specification's repeatable-parameter formula. -/
def specInstance (start stride rawIndex : Nat) : Nat :=
  (rawIndex - start) / stride + 1

/-- Offset of the specification's repeatable-parameter formula. -/
def specOffset (start stride rawIndex : Nat) : Nat :=
  (rawIndex - start) % stride

/-- Count of non-optional parameters (`minParams` of the specification). -/
def specMinParams (ps : List FunctionParameter) : Nat :=
  (ps.filter fun p => !p.isOptional).length

/-- Count of non-repeatable parameters (`maxParams` of the specification). -/
def specMaxParams (ps : List FunctionParameter) : Nat :=
  (ps.filter fun p => !p.isRepeatable).length

/-- Declaration and usage ranges of a measure. -/
def measureRanges (info : MeasureInfo) : List Range :=
  (match info.declarationRange with | some r => [r] | none => []) ++ info.usageRanges

/-- Every declaration range and reference range of every symbol emitted by a
parse: variables, tables, measures and columns. -/
def emittedSymbolRanges (p : ParseResult) : List Range :=
  (p.vars.flatMap fun v => v.declarationRange :: v.usageRanges) ++
  (p.tables.flatMap fun q => q.2.usageRanges) ++
  (p.measures.flatMap fun q => measureRanges q.2) ++
  p.columnRanges

/-- A span lies entirely outside an exclusion range: the negation of the
overlap test `start < e.end && end > e.start` used everywhere downstream. -/
def rangeOutside (r : Range) (e : ExclusionRange) : Prop :=
  ¬(r.start < e.stop ∧ r.stop > e.start)

/-- The linking invariant of the claim about the Symbol Table, restricted to
non-empty table contexts: every registered column whose context names a
registered table is linked to it and appears exactly once among its
children. -/
def symTableInvariant (st : SymState) : Prop :=
  ∀ ck cid, (ck, cid) ∈ st.keys → (st.arena cid).kind = .Column →
  ∀ ctx, (st.arena cid).tableContext = some ctx → ctx ≠ [] →
  ∀ tk tid, (tk, tid) ∈ st.keys → (st.arena tid).kind = .Table →
  upper ctx = upper ((st.arena tid).name) →
  (st.arena cid).parent = some tid ∧ ((st.arena tid).children.count cid = 1)

/-! ## Basic lemmas -/

theorem litMatchAt_bound {text pat : List Char} {j : Nat} (hp : pat ≠ [])
    (h : litMatchAt text pat j = true) : j + pat.length ≤ text.length := by
  unfold litMatchAt slice at h
  have hl : ((text.drop j).take pat.length).length = pat.length := by
    rw [of_decide_eq_true h]
  have hp' : 0 < pat.length := List.length_pos.mpr hp
  simp only [List.length_take, List.length_drop] at hl
  omega

theorem findLitGo_none {text pat : List Char}
    (h : ∀ j, litMatchAt text pat j = false) (fuel i : Nat) :
    findLitGo text pat fuel i = none := by
  induction fuel generalizing i with
  | zero => rfl
  | succ fuel ih => simp only [findLitGo, h, if_false]; split <;> simp [ih]

/-! ## Claim theorems -/

/-- Concrete text of the missing-RETURN example: `VAR x = 1`. -/
def varText : List Char := ['V','A','R',' ','x',' ','=',' ','1']

/-- Concrete text of the paired example: `VAR x = 1 RETURN x`. -/
def varReturnText : List Char :=
  ['V','A','R',' ','x',' ','=',' ','1',' ','R','E','T','U','R','N',' ','x']

/-- C9: a second `parse` of a document with the same identity and version
returns the result and state of the first call unchanged — a cache hit keyed
only on identity and version; the second document's text is unconstrained,
so content plays no part in the hit. -/
theorem C9_parse_cache_hit (kf : List String) (dp : List FunctionMetadata)
    (st : ParserState) (doc1 doc2 : TextDocument)
    (huri : doc2.uri = doc1.uri) (hver : doc2.version = doc1.version) :
    parse kf dp (parse kf dp st doc1).2 doc2 = parse kf dp st doc1 := by
  unfold parse
  rcases st with ⟨_ | ⟨u, v, r⟩⟩
  · simp [huri, hver]
  · cases hu : (decide (u = doc1.uri) && decide (v = doc1.version)) with
    | true =>
      have hu2 : (decide (u = doc2.uri) && decide (v = doc2.version)) = true := by
        rw [huri, hver]; exact hu
      simp [hu, hu2]
    | false => simp [hu, huri, hver]

/-- C9 witness: a concrete cache hit where the second document has the same
identity and version but entirely different content. -/
theorem C9_parse_cache_hit_witness :
    parse [] [] (parse [] [] ⟨none⟩ ⟨"file:a", 3, varText⟩).2
        ⟨"file:a", 3, ['o','t','h','e','r']⟩ =
      parse [] [] ⟨none⟩ ⟨"file:a", 3, varText⟩ :=
  C9_parse_cache_hit [] [] ⟨none⟩ ⟨"file:a", 3, varText⟩
    ⟨"file:a", 3, ['o','t','h','e','r']⟩ rfl rfl

/-- C2 counterexample: an unterminated block comment (`/*x`) and an
unterminated string (`"ab`) produce NO exclusion range at all — the claim's
single unbounded range extending to the end of text does not exist. -/
theorem C2_counterexample :
    findExclusionRanges ['/','*','x'] = [] ∧
    findExclusionRanges ['"','a','b'] = [] := by decide

/-- C2 amended: the scanner never fails on unterminated constructs, but an
unterminated construct yields no exclusion range: a text with no `*/`
anywhere yields no block-comment range at all, and the two unterminated
examples yield empty exclusion lists. -/
theorem C2_amended :
    (∀ text : List Char,
      (∀ j, j < text.length → litMatchAt text ['*','/'] j = false) →
      scanAll blockCommentMatch text = []) ∧
    findExclusionRanges ['/','*','x'] = [] ∧
    findExclusionRanges ['"','a','b'] = [] := by
  refine ⟨?_, by decide, by decide⟩
  intro text h
  have hall : ∀ j, litMatchAt text ['*','/'] j = false := by
    intro j
    by_cases hj : j < text.length
    · exact h j hj
    · by_contra hc
      have := @litMatchAt_bound text ['*','/'] j (by simp)
        (by revert hc; cases litMatchAt text ['*','/'] j <;> simp)
      simp at this; omega
  have hnone : ∀ i, blockCommentMatch text i = none := by
    intro i
    unfold blockCommentMatch
    split
    · rw [show findLitFrom text ['*','/'] (i + 2) = none from findLitGo_none hall _ _]
    · rfl
  have hgen : ∀ fuel i, scanAllGo blockCommentMatch text fuel i = [] := by
    intro fuel
    induction fuel with
    | zero => intro i; rfl
    | succ fuel ih =>
      intro i
      simp only [scanAllGo, hnone]
      split
      · exact ih (i + 1)
      · rfl
  exact hgen _ 0

/-- C2 amended witness: the general part applied to the concrete
unterminated block comment. -/
theorem C2_amended_witness :
    scanAll blockCommentMatch ['/','*','x'] = [] :=
  C2_amended.1 ['/','*','x'] (by decide)

/-- C7 counterexample: `VAR x = 1` yields TWO diagnostics, not one — an
unused-variable warning first — and the missing-return error is anchored at
the `VAR` keyword (offsets 0–3), not at `x`'s declaration (offsets 4–5). -/
theorem C7_counterexample :
    (parseDocument [] [] varText).diagnostics.length = 2 ∧
    (parseDocument [] [] varText).vars.map (fun v => v.declarationRange) = [⟨4, 5⟩] ∧
    (∀ d ∈ (parseDocument [] [] varText).diagnostics,
      d.code = "missing-return" → d.range = ⟨0, 3⟩) := by
  refine ⟨by decide, by decide, by decide⟩

/-- C7 amended: for any function and parameter catalog, analysing
`VAR x = 1` yields exactly two diagnostics — the unused-variable warning
anchored at `x`'s declaration and the missing-return error anchored at the
`VAR` keyword. -/
theorem C7_amended (kf : List String) (dp : List FunctionMetadata) :
    (parseDocument kf dp varText).diagnostics =
      [{ range := ⟨4, 5⟩
         message := "Variable 'x' is declared but never used"
         severity := "warning", code := "unused-variable" },
       { range := ⟨0, 3⟩
         message := "VAR declaration without corresponding RETURN statement"
         severity := "error", code := "missing-return" }] := rfl

/-- C8: for any function and parameter catalog, `VAR x = 1 RETURN x` parses
to exactly one variable `x` with exactly one usage range (the `x` after
`RETURN`, offsets 17–18) and an empty diagnostics list. -/
theorem C8_var_return_roundtrip (kf : List String) (dp : List FunctionMetadata) :
    (parseDocument kf dp varReturnText).vars =
      [{ name := "x", declarationRange := ⟨4, 5⟩
         usageRanges := [⟨17, 18⟩], parentMeasure := none }] ∧
    (parseDocument kf dp varReturnText).diagnostics = [] := ⟨rfl, rfl⟩

/-- Concrete text of the C1 counterexample: `VAR x = ( RETURN 1` — the only
RETURN is at parenthesis depth 1, deeper than the VAR's depth 0. -/
def varParenText : List Char :=
  ['V','A','R',' ','x',' ','=',' ','(',' ','R','E','T','U','R','N',' ','1']

/-- C1 counterexample: in `VAR x = ( RETURN 1` the VAR block at offset 0
satisfies the specification's missing-RETURN condition (no subsequent RETURN
at equal-or-shallower depth exists, and the VAR survives the depth-popping
pass), yet the code emits no diagnostic at all, because its final check
accepts a subsequent RETURN at any depth. -/
theorem C1_counterexample :
    (⟨.VAR, 0⟩ : ScopeBlock) ∈
        findScopeBlocks varParenText (findExclusionRanges varParenText) ∧
    specMissingReturn varParenText
        (findScopeBlocks varParenText (findExclusionRanges varParenText)) ⟨.VAR, 0⟩ = true ∧
    runScopeDiagnostics varParenText
        (findScopeBlocks varParenText (findExclusionRanges varParenText)) = [] := by
  refine ⟨by decide, by decide, by decide⟩

/-- C10 counterexample: adding a Table named `""` and then a Column whose
`tableContext` is the empty string leaves the column unlinked — the empty
context is JS-falsy, so the column branch of `addSymbol` never looks the
table up, although the context equals the registered table's name. -/
theorem C10_counterexample :
    (kindChars .Table ++ [':'], 0) ∈
        (runSymbolTable [⟨[], .Table, none⟩, ⟨['c'], .Column, some []⟩]).keys ∧
    ((runSymbolTable [⟨[], .Table, none⟩, ⟨['c'], .Column, some []⟩]).arena 0).kind = .Table ∧
    ((runSymbolTable [⟨[], .Table, none⟩, ⟨['c'], .Column, some []⟩]).arena 1).kind = .Column ∧
    ((runSymbolTable [⟨[], .Table, none⟩, ⟨['c'], .Column, some []⟩]).arena 1).tableContext
      = some [] ∧
    upper [] =
      upper ((runSymbolTable [⟨[], .Table, none⟩, ⟨['c'], .Column, some []⟩]).arena 0).name ∧
    (('c':: 'o':: 'l':: 'u':: 'm':: 'n':: ':'::['C'], 1) ∈
        (runSymbolTable [⟨[], .Table, none⟩, ⟨['c'], .Column, some []⟩]).keys) ∧
    ((runSymbolTable [⟨[], .Table, none⟩, ⟨['c'], .Column, some []⟩]).arena 1).parent = none ∧
    ((runSymbolTable [⟨[], .Table, none⟩, ⟨['c'], .Column, some []⟩]).arena 0).children = [] := by
  refine ⟨by decide, by decide, by decide, by decide, by decide, by decide, by decide, by decide⟩

/-- Sample catalog with a 2-parameter repeatable group starting at index 2. -/
def sampleRepeatParams : List FunctionParameter :=
  [⟨"p1", "t", false, false⟩, ⟨"p2", "t", false, false⟩,
   ⟨"v", "t", false, true⟩, ⟨"w", "t", false, true⟩]

/-- Argument text of a call with 6 comma-separated arguments, as the cursor
sees it after the open paren. -/
def sixArgsText : List Char := ['1',',','2',',','3',',','4',',','5',',','6']

theorem getRepeatableStartIndex_lt {params : List FunctionParameter} {start : Nat}
    (h : getRepeatableStartIndex params = some start) : start < params.length := by
  induction params generalizing start with
  | nil => simp [getRepeatableStartIndex] at h
  | cons p rest ih =>
    simp only [getRepeatableStartIndex] at h
    split at h
    · cases h; simp
    · rcases Option.map_eq_some'.mp h with ⟨n, hn, rfl⟩
      have := ih hn
      simp; omega

/-- C3 counterexample: against a 2-parameter repeatable group starting at
index 2, a call with 6 comma-separated arguments gives raw index 5 (five
top-level commas), hence instance 2 and offset 1 — not instance 3 and
offset 0 — and the display collapses to the ellipsis plus the group-2
labels, not the group-3 labels. -/
theorem C3_counterexample :
    getParameterIndex sixArgsText = 5 ∧
    specInstance 2 2 (getParameterIndex sixArgsText) ≠ 3 ∧
    specOffset 2 2 (getParameterIndex sixArgsText) ≠ 0 ∧
    buildDisplayedParams sampleRepeatParams (getParameterIndex sixArgsText) ≠
      ["p1", "p2", "...", "v3", "w3"] := by
  refine ⟨by decide, by decide, by decide, by decide⟩

/-- C3 amended: the displayed-index formulas hold as specified for every
raw index past the repeatable start (stride 1: raw index for instance 1,
`start+1` for instance 2, `start+2` beyond; stride > 1: raw index for
instance 1, `start+1+offset` after); but a call with 6 comma-separated
arguments has raw index 5, computing instance 2 and offset 1 with the
ellipsis plus the group-2 labels — raw index 6 (a seventh argument
position) is what computes instance 3, offset 0 and the group-3 labels. -/
theorem C3_amended :
    (∀ (params : List FunctionParameter) (start rawIndex : Nat),
      getRepeatableStartIndex params = some start →
      start ≤ rawIndex →
      (params.length - start = 1 →
        getActiveIndex params rawIndex =
          if specInstance start 1 rawIndex = 1 then rawIndex
          else if specInstance start 1 rawIndex = 2 then start + 1
          else start + 2) ∧
      (1 < params.length - start →
        getActiveIndex params rawIndex =
          if specInstance start (params.length - start) rawIndex = 1 then rawIndex
          else start + 1 + specOffset start (params.length - start) rawIndex)) ∧
    (getParameterIndex sixArgsText = 5 ∧
     specInstance 2 2 5 = 2 ∧ specOffset 2 2 5 = 1 ∧
     getActiveIndex sampleRepeatParams 5 = 4 ∧
     buildDisplayedParams sampleRepeatParams 5 = ["p1", "p2", "...", "v2", "w2"] ∧
     specInstance 2 2 6 = 3 ∧ specOffset 2 2 6 = 0 ∧
     getActiveIndex sampleRepeatParams 6 = 3 ∧
     buildDisplayedParams sampleRepeatParams 6 = ["p1", "p2", "...", "v3", "w3"]) := by
  constructor
  · intro params start rawIndex hstart hraw
    have hlt : start < params.length := getRepeatableStartIndex_lt hstart
    unfold getActiveIndex
    rw [hstart]
    simp only [if_neg (by omega : ¬rawIndex < start)]
    constructor
    · intro h1
      rw [h1]
      simp only [specInstance, Nat.div_one]
      rcases Nat.lt_or_ge rawIndex (start + 1) with hx | hx
      · have hd : rawIndex - start = 0 := by omega
        rw [hd]
        norm_num
      · rcases Nat.lt_or_ge rawIndex (start + 2) with hy | hy
        · have hd : rawIndex - start = 1 := by omega
          rw [hd]
          norm_num
        · have h3 : ¬(rawIndex - start + 1 = 1) := by omega
          have h4 : ¬(rawIndex - start + 1 = 2) := by omega
          have h5 : rawIndex - start + 1 > 2 := by omega
          simp only [if_neg h3, if_neg h4, if_pos h5]
          simp
    · intro h2
      have hs1 : ¬(params.length - start = 1) := by omega
      simp only [specInstance, specOffset, if_neg hs1]
  · refine ⟨by decide, by decide, by decide, by decide, by decide,
      by decide, by decide, by decide, by decide⟩

/-- C3 amended witness: the general formula applied to the sample catalog at
raw index 5 (instance 2 of the stride-2 group). -/
theorem C3_amended_witness :
    getActiveIndex sampleRepeatParams 5 =
      if specInstance 2 (sampleRepeatParams.length - 2) 5 = 1 then 5
      else 2 + 1 + specOffset 2 (sampleRepeatParams.length - 2) 5 :=
  ((C3_amended.1 sampleRepeatParams 2 5 (by decide) (by decide)).2 (by decide))

theorem paramBoundsFold (ps : List FunctionParameter) :
    ∀ a b c, ps.foldl paramBoundsStep (a, b, c) =
      (a + specMinParams ps, b + specMaxParams ps, c || ps.any (·.isRepeatable)) := by
  induction ps with
  | nil => intro a b c; simp [specMinParams, specMaxParams]
  | cons p rest ih =>
    intro a b c
    simp only [List.foldl_cons, paramBoundsStep, ih]
    simp only [specMinParams, specMaxParams, List.filter_cons, List.any_cons]
    by_cases ho : p.isOptional <;> by_cases hr : p.isRepeatable <;>
      simp [ho, hr, Bool.or_assoc] <;> omega

theorem calculateParameterBounds_spec (ps : List FunctionParameter) :
    calculateParameterBounds ps =
      (specMinParams ps,
       if ps.any (·.isRepeatable) then none else some (specMaxParams ps)) := by
  unfold calculateParameterBounds
  rw [paramBoundsFold ps 0 0 false]
  simp

/-- Concrete `SUM()` call text. -/
def sumText : List Char := ['S','U','M','(',')']

/-- Catalog entry requiring one non-optional parameter. -/
def sumCatalog : List FunctionMetadata := [⟨"SUM", [⟨"values", "t", false, false⟩]⟩]

/-- C5: the arity checker flags too-few exactly when the count is below the
number of non-optional parameters, flags too-many exactly when no parameter
is repeatable and the count exceeds the number of non-repeatable parameters,
and stays silent for calls whose name is absent from the catalog; in
particular `SUM()` against a catalog requiring one parameter extracts
`parameterCount = 0` and yields one too-few-parameters error. -/
theorem C5_arity :
    (∀ (call : FunctionCall) (catalog : List FunctionMetadata),
      (catalog.find? (fun fn => fn.name = call.name) = none →
        runFunctionDiagnostics [call] catalog = []) ∧
      (∀ m, catalog.find? (fun fn => fn.name = call.name) = some m →
        ((∃ d ∈ runFunctionDiagnostics [call] catalog, d.code = "too-few-parameters") ↔
          call.parameterCount < specMinParams m.parameters) ∧
        ((∃ d ∈ runFunctionDiagnostics [call] catalog, d.code = "too-many-parameters") ↔
          (∀ p ∈ m.parameters, p.isRepeatable = false) ∧
            specMaxParams m.parameters < call.parameterCount))) ∧
    ((parseFunctionCalls ["SUM"] sumText (findExclusionRanges sumText)).map
        (fun q => q.parameterCount) = [0] ∧
     (runFunctionDiagnostics
        (parseFunctionCalls ["SUM"] sumText (findExclusionRanges sumText)) sumCatalog).map
        (fun d => (d.code, d.severity)) = [("too-few-parameters", "error")]) := by
  constructor
  · intro call catalog
    have hrun : runFunctionDiagnostics [call] catalog = functionCallDiagnostics catalog call := by
      simp [runFunctionDiagnostics]
    constructor
    · intro hnone
      rw [hrun]
      unfold functionCallDiagnostics
      rw [hnone]
    · intro m hm
      rw [hrun]
      unfold functionCallDiagnostics
      rw [hm]
      simp only [calculateParameterBounds_spec]
      have hcodes : ("too-few-parameters" : String) ≠ "too-many-parameters" := by decide
      by_cases hrep : m.parameters.any (·.isRepeatable)
      · have hrep' : ¬(∀ p ∈ m.parameters, p.isRepeatable = false) := by
          simp only [List.any_eq_true] at hrep
          rcases hrep with ⟨p, hp, hpr⟩
          intro hall
          rw [hall p hp] at hpr
          cases hpr
        by_cases hfew : call.parameterCount < specMinParams m.parameters
        · simp [hrep, hfew, hrep']
        · simp [hrep, hfew, hrep']
      · have hrep' : (∀ p ∈ m.parameters, p.isRepeatable = false) := by
          intro p hp
          by_contra hc
          exact hrep (List.any_eq_true.mpr ⟨p, hp, by revert hc; cases p.isRepeatable <;> simp⟩)
        by_cases hfew : call.parameterCount < specMinParams m.parameters <;>
          by_cases hmany : specMaxParams m.parameters < call.parameterCount <;>
            simp [hrep, hfew, hmany, hrep', hcodes, Ne.symm hcodes] <;>
              exact hrep'
  · exact ⟨by decide, by decide⟩

/-- C5 witness: the general characterization applied to the concrete
`SUM()` call with its one-parameter catalog entry. -/
theorem C5_arity_witness :
    ∃ d ∈ runFunctionDiagnostics [⟨"SUM", 0, [⟨0, 3⟩]⟩] sumCatalog,
      d.code = "too-few-parameters" :=
  (((C5_arity.1 ⟨"SUM", 0, [⟨0, 3⟩]⟩ sumCatalog).2
    ⟨"SUM", [⟨"values", "t", false, false⟩]⟩ (by decide)).1).mpr (by decide)

theorem take_succ_of_charAt {s : List Char} {j : Nat} {c : Char}
    (hc : charAt s j = some c) : s.take (j + 1) = s.take j ++ [c] := by
  rw [List.take_succ]
  unfold charAt at hc
  rw [hc]
  rfl

theorem quoteParityAt_succ {s : List Char} {j : Nat} {c : Char}
    (hc : charAt s j = some c) :
    quoteParityAt s (j + 1) = (if c = '"' then !quoteParityAt s j else quoteParityAt s j) := by
  have htake : s.take (j + 1) = s.take j ++ [c] := take_succ_of_charAt hc
  simp only [quoteParityAt, htake, List.count_append]
  by_cases hcq : c = '"'
  · subst hcq
    simp only [if_pos rfl]
    have h1 : List.count '"' ['"'] = 1 := by decide
    rw [h1]
    by_cases hp : (s.take j).count '"' % 2 = 1 <;> simp [hp] <;> omega
  · have h0 : List.count '"' [c] = 0 :=
      List.count_eq_zero.mpr (by simp; exact Ne.symm hcq)
    rw [h0, if_neg hcq]
    simp

theorem depthOutsideAt_succ {s : List Char} {j : Nat} {c : Char}
    (hc : charAt s j = some c) :
    depthOutsideAt s (j + 1) = depthOutsideAt s j +
      (if quoteParityAt s j then 0
       else if c = '(' then 1 else if c = ')' then -1 else 0) := by
  simp only [depthOutsideAt, List.range_succ, List.map_append, List.sum_append,
    List.map_cons, List.map_nil, List.sum_cons, List.sum_nil, hc, add_zero,
    Option.some.injEq]

theorem countParamFold_take (s : List Char) :
    ∀ j, j ≤ s.length →
      (s.take j).foldl countParamStep (0, 0, false) =
        (((List.range j).filter fun k =>
            charAt s k = some ',' && !quoteParityAt s k &&
              decide (depthOutsideAt s k = 0)).length,
         depthOutsideAt s j, quoteParityAt s j) := by
  intro j
  induction j with
  | zero =>
    intro _
    simp [depthOutsideAt, quoteParityAt]
  | succ j ih =>
    intro hj
    have hjl : j < s.length := by omega
    obtain ⟨c, hcs⟩ : ∃ c, charAt s j = some c := by
      unfold charAt
      exact ⟨s[j], List.getElem?_eq_getElem hjl⟩
    rw [take_succ_of_charAt hcs, List.foldl_append, ih (by omega)]
    simp only [List.foldl_cons, List.foldl_nil]
    rw [List.range_succ, List.filter_append, List.length_append]
    rw [quoteParityAt_succ hcs, depthOutsideAt_succ hcs]
    simp only [List.filter_cons, List.filter_nil, hcs, Option.some.injEq]
    unfold countParamStep
    by_cases hq : c = '"'
    · subst hq
      have hne : ¬(('"' : Char) = ',') := by decide
      simp [hne]
    · by_cases hp : quoteParityAt s j
      · simp [hp, hq]
      · by_cases ho : c = '('
        · subst ho
          have hne : ¬(('(' : Char) = ',') := by decide
          simp [hp, hne]
        · by_cases hcl : c = ')'
          · subst hcl
            have hne : ¬((')' : Char) = ',') := by decide
            simp [hp, hne, Int.sub_eq_add_neg]
          · by_cases hcm : c = ','
            · subst hcm
              by_cases hd : depthOutsideAt s j = 0
              · simp [hp, hq, ho, hcl, hd]
              · simp [hp, hq, ho, hcl, hd]
            · simp [hp, hq, ho, hcl, hcm]

/-- C4: for a well-matched call (the close paren found by the depth-counting
search), the extracted parameter count is 0 when the argument text is empty
after stripping table constructors and trimming, and otherwise one more than
the number of top-level commas — commas at parenthesis depth 0 and outside
string literals of the stripped text. -/
theorem C4_parameter_count (text : List Char) (o c : Nat) (excl : List ExclusionRange)
    (h : findMatchingCloseParen text o excl = some c) :
    countParameters text o c =
      if (trim (stripTableConstructors (substringJS text (o + 1) c))).length = 0 then 0
      else specTopLevelCommaCount (trim (stripTableConstructors (substringJS text (o + 1) c))) + 1 := by
  unfold countParameters
  set s := trim (stripTableConstructors (substringJS text (o + 1) c)) with hs
  by_cases hlen : s.length = 0
  · simp [hlen]
  · simp only [if_neg hlen]
    have := countParamFold_take s s.length (Nat.le_refl _)
    rw [List.take_length] at this
    rw [this]
    simp [specTopLevelCommaCount]

/-- C4 witness: the characterization applied to the concrete call
`F(a,{1,2},b)` (close paren found at offset 11), whose count is 3. -/
theorem C4_parameter_count_witness :
    countParameters ['F','(','a',',','{','1',',','2','}',',','b',')'] 1 11 =
      if (trim (stripTableConstructors
          (substringJS ['F','(','a',',','{','1',',','2','}',',','b',')'] 2 11))).length = 0 then 0
      else specTopLevelCommaCount (trim (stripTableConstructors
          (substringJS ['F','(','a',',','{','1',',','2','}',',','b',')'] 2 11))) + 1 :=
  C4_parameter_count ['F','(','a',',','{','1',',','2','}',',','b',')'] 1 11 [] (by decide)

/-! ## Structure of `findScopeBlocks`: sortedness and distinct offsets -/

theorem popWhile_suffix {α : Type} (p : α → Bool) (l : List α) :
    (popWhile p l) <:+ l := by
  induction l with
  | nil => exact List.suffix_refl _
  | cons x xs ih =>
    unfold popWhile
    split
    · exact ih.trans (List.suffix_cons x xs)
    · exact List.suffix_refl _

theorem scanAllGo_pairwise {α : Type} (m : List Char → Nat → Option (Nat × α))
    (text : List Char) (fuel i : Nat) :
    List.Pairwise (fun a b => a.idx < b.idx) (scanAllGo m text fuel i) := by
  induction fuel generalizing i with
  | zero => simp [scanAllGo]
  | succ fuel ih =>
    simp only [scanAllGo]
    by_cases hi : i < text.length
    · simp only [if_pos hi]
      rcases hm : m text i with _ | ⟨l, a⟩
      · exact ih (i + 1)
      · refine List.Pairwise.cons ?_ (ih (i + max l 1))
        intro r hr
        have := (scanAllGo_sound m text fuel (i + max l 1) r hr).1
        simp only []
        omega
    · simp [if_neg hi]

theorem scanKeyword_pairwise (t : BlockType) (kw : List Char) (text : List Char)
    (excl : List ExclusionRange) :
    List.Pairwise (fun a b => a.index < b.index) (scanKeyword t kw text excl) := by
  unfold scanKeyword
  refine List.Pairwise.map _ ?_ (List.Pairwise.filter _ (scanAllGo_pairwise _ _ _ _))
  exact fun a b h => h

theorem scanKeyword_type (t : BlockType) (kw : List Char) (text : List Char)
    (excl : List ExclusionRange) :
    ∀ b ∈ scanKeyword t kw text excl, b.type = t := by
  unfold scanKeyword
  intro b hb
  rcases List.mem_map.mp hb with ⟨r, _, rfl⟩
  rfl

theorem scanKeyword_headChar (t : BlockType) (k0 : Char) (rest : List Char)
    (text : List Char) (excl : List ExclusionRange) :
    ∀ b ∈ scanKeyword t (k0 :: rest) text excl,
      ∃ c, charAt text b.index = some c ∧ upChar c = upChar k0 := by
  unfold scanKeyword
  intro b hb
  rcases List.mem_map.mp hb with ⟨r, hr, rfl⟩
  have hm := scanAllGo_sound _ text _ 0 r (List.mem_filter.mp hr).1
  unfold kwMatch at hm
  rcases hm with ⟨_, hm⟩
  split at hm
  · rename_i hcond
    have hci : ciMatchAt text (k0 :: rest) r.idx = true := by
      simp only [Bool.and_eq_true] at hcond
      exact hcond.1.2
    unfold ciMatchAt at hci
    simp only [Bool.and_eq_true] at hci
    rcases hci with ⟨hlen, hall⟩
    have hlen' : (slice text r.idx (k0 :: rest).length).length = (k0 :: rest).length :=
      of_decide_eq_true hlen
    rcases hsl : slice text r.idx (k0 :: rest).length with _ | ⟨c, cs⟩
    · rw [hsl] at hlen'; simp at hlen'
    · refine ⟨c, ?_, ?_⟩
      · have : (text.drop r.idx).take (k0 :: rest).length = c :: cs := hsl
        unfold charAt
        rcases hd : text.drop r.idx with _ | ⟨d, ds⟩
        · rw [hd] at this; simp at this
        · rw [hd] at this
          simp only [List.length_cons, List.take_succ_cons, List.cons.injEq] at this
          have hidx : text[r.idx]? = some d := by
            have : text.drop r.idx = d :: ds := hd
            have h1 : (text.drop r.idx).head? = some d := by rw [this]; rfl
            rw [List.head?_drop] at h1
            exact h1
          rw [hidx, this.1]
      · rw [hsl] at hall
        have := (List.all_eq_true.mp hall) (c, k0) (by simp)
        exact of_decide_eq_true this
  · cases hm

theorem insertByIndex_perm (b : ScopeBlock) (l : List ScopeBlock) :
    List.Perm (insertByIndex b l) (b :: l) := by
  induction l with
  | nil => rfl
  | cons x xs ih =>
    unfold insertByIndex
    split
    · rfl
    · exact (List.Perm.cons x ih).trans (List.Perm.swap b x xs)

theorem sortByIndex_perm (l : List ScopeBlock) : List.Perm (sortByIndex l) l := by
  induction l with
  | nil => rfl
  | cons x xs ih =>
    unfold sortByIndex
    simp only [List.foldr_cons]
    exact (insertByIndex_perm x _).trans (List.Perm.cons x ih)

theorem insertByIndex_sorted (b : ScopeBlock) (l : List ScopeBlock)
    (h : List.Pairwise (fun a c => a.index ≤ c.index) l) :
    List.Pairwise (fun a c => a.index ≤ c.index) (insertByIndex b l) := by
  induction l with
  | nil => simp [insertByIndex]
  | cons x xs ih =>
    unfold insertByIndex
    rcases List.pairwise_cons.mp h with ⟨hx, hxs⟩
    split
    · rename_i hlt
      refine List.pairwise_cons.mpr ⟨?_, h⟩
      intro c hc
      rcases hc with _ | hc
      · omega
      · have := hx c (by assumption)
        omega
    · rename_i hge
      refine List.pairwise_cons.mpr ⟨?_, ih hxs⟩
      intro c hc
      have := List.mem_cons.mp ((insertByIndex_perm b xs).mem_iff.mp hc)
      rcases this with rfl | hcx
      · omega
      · exact hx c hcx

theorem sortByIndex_sorted (l : List ScopeBlock) :
    List.Pairwise (fun a c => a.index ≤ c.index) (sortByIndex l) := by
  induction l with
  | nil => simp [sortByIndex]
  | cons x xs ih =>
    unfold sortByIndex
    simp only [List.foldr_cons]
    exact insertByIndex_sorted x _ ih

theorem scanKeyword_index_ne {t1 t2 : BlockType} {k1 k2 : Char} {r1 r2 : List Char}
    {text : List Char} {excl : List ExclusionRange} (hne : upChar k1 ≠ upChar k2) :
    ∀ b1 ∈ scanKeyword t1 (k1 :: r1) text excl,
    ∀ b2 ∈ scanKeyword t2 (k2 :: r2) text excl, b1.index ≠ b2.index := by
  intro b1 h1 b2 h2 heq
  rcases scanKeyword_headChar t1 k1 r1 text excl b1 h1 with ⟨c1, hc1, hu1⟩
  rcases scanKeyword_headChar t2 k2 r2 text excl b2 h2 with ⟨c2, hc2, hu2⟩
  rw [heq, hc2] at hc1
  cases hc1
  exact hne (hu1 ▸ hu2 ▸ rfl)

theorem findScopeBlocks_sorted (text : List Char) (excl : List ExclusionRange) :
    List.Pairwise (fun a c => a.index ≤ c.index) (findScopeBlocks text excl) :=
  sortByIndex_sorted _

theorem findScopeBlocks_index_ne (text : List Char) (excl : List ExclusionRange) :
    List.Pairwise (fun a c => a.index ≠ c.index) (findScopeBlocks text excl) := by
  refine ((sortByIndex_perm _).pairwise_iff
    (R := fun a c : ScopeBlock => a.index ≠ c.index) (fun h => Ne.symm h)).mpr ?_
  have hlt : ∀ (t : BlockType) (kw : List Char),
      List.Pairwise (fun a c : ScopeBlock => a.index ≠ c.index)
        (scanKeyword t kw text excl) := by
    intro t kw
    exact (scanKeyword_pairwise t kw text excl).imp (fun h => by omega)
  rw [List.pairwise_append]
  refine ⟨?_, hlt _ _, ?_⟩
  · rw [List.pairwise_append]
    refine ⟨?_, hlt _ _, ?_⟩
    · rw [List.pairwise_append]
      refine ⟨hlt _ _, hlt _ _, ?_⟩
      · exact fun a ha b hb => scanKeyword_index_ne (by decide) a ha b hb
    · intro a ha b hb
      rcases List.mem_append.mp ha with ha | ha
      · exact scanKeyword_index_ne (by decide) a ha b hb
      · exact scanKeyword_index_ne (by decide) a ha b hb
  · intro a ha b hb
    rcases List.mem_append.mp ha with ha | ha
    · rcases List.mem_append.mp ha with ha | ha
      · exact scanKeyword_index_ne (by decide) a ha b hb
      · exact scanKeyword_index_ne (by decide) a ha b hb
    · exact scanKeyword_index_ne (by decide) a ha b hb

theorem findScopeBlocks_index_lt (text : List Char) (excl : List ExclusionRange) :
    List.Pairwise (fun a c => a.index < c.index) (findScopeBlocks text excl) := by
  have h1 := findScopeBlocks_sorted text excl
  have h2 := findScopeBlocks_index_ne text excl
  exact (h1.and h2).imp (fun h => by omega)

theorem findScopeBlocks_nodup (text : List Char) (excl : List ExclusionRange) :
    (findScopeBlocks text excl).Nodup :=
  (findScopeBlocks_index_ne text excl).imp (fun h => by intro he; exact h (he ▸ rfl))

/-! ## Behaviour of the VAR/RETURN pairing stack -/

theorem mem_foldl_scopeStep (text : List Char) :
    ∀ (blocks : List ScopeBlock) (stack : List VarContext) (v : VarContext),
      v ∈ blocks.foldl (scopeStep text) stack →
      v ∈ stack ∨ (v.block ∈ blocks ∧ v.block.type = .VAR) := by
  intro blocks
  induction blocks with
  | nil => intro stack v h; exact Or.inl h
  | cons b rest ih =>
    intro stack v h
    simp only [List.foldl_cons] at h
    rcases ih _ v h with hs | ⟨hm, ht⟩
    · unfold scopeStep at hs
      rcases hbt : b.type with _ | _ | _ | _ <;> rw [hbt] at hs
      · rcases List.mem_cons.mp hs with rfl | hs
        · exact Or.inr ⟨List.mem_cons_self _ _, hbt⟩
        · exact Or.inl hs
      · exact Or.inl ((popWhile_suffix _ _).subset hs)
      · exact Or.inl hs
      · exact Or.inl hs
    · exact Or.inr ⟨List.mem_cons_of_mem _ hm, ht⟩

theorem mem_foldl_scopeStep_of_no_return (text : List Char) :
    ∀ (blocks : List ScopeBlock) (stack : List VarContext) (v : VarContext),
      v ∈ stack → (∀ r ∈ blocks, r.type ≠ .RETURN) →
      v ∈ blocks.foldl (scopeStep text) stack := by
  intro blocks
  induction blocks with
  | nil => intro stack v h _; exact h
  | cons b rest ih =>
    intro stack v h hnr
    simp only [List.foldl_cons]
    refine ih _ v ?_ (fun r hr => hnr r (List.mem_cons_of_mem _ hr))
    unfold scopeStep
    rcases hbt : b.type with _ | _ | _ | _
    · exact List.mem_cons_of_mem _ h
    · exact absurd hbt (hnr b (List.mem_cons_self _ _))
    · exact h
    · exact h

theorem stack_blocks_sublist (text : List Char) :
    ∀ (blocks : List ScopeBlock) (stack : List VarContext),
      List.Sublist ((blocks.foldl (scopeStep text) stack).reverse.map (fun v => v.block))
        (((stack.reverse.map (fun v => v.block)) ++ blocks)) := by
  intro blocks
  induction blocks with
  | nil => intro stack; simp
  | cons b rest ih =>
    intro stack
    simp only [List.foldl_cons]
    refine (ih (scopeStep text stack b)).trans ?_
    unfold scopeStep
    rcases hbt : b.type with _ | _ | _ | _
    · simp only [List.reverse_cons, List.map_append, List.map_cons, List.map_nil]
      rw [List.append_assoc]
      exact List.Sublist.append_left (by simp) _
    · rcases popWhile_suffix (fun v => v.parenDepth ≥ getParenDepth text b.index) stack
        with ⟨pre, hpre⟩
      have hsub : List.Sublist
          ((popWhile (fun v => v.parenDepth ≥ getParenDepth text b.index) stack).reverse.map
            (fun v => v.block))
          (stack.reverse.map (fun v => v.block)) := by
        conv_rhs => rw [← hpre]
        simp only [List.reverse_append, List.map_append]
        exact List.sublist_append_left _ _
      exact (List.Sublist.append_right hsub rest).trans
        (List.Sublist.append_left (List.sublist_cons_self b rest) _)
    · exact List.Sublist.append_left (List.sublist_cons_self b rest) _
    · exact List.Sublist.append_left (List.sublist_cons_self b rest) _

theorem findIdx?_append_cons {l1 l2 : List ScopeBlock} {b : ScopeBlock}
    (h : ∀ x ∈ l1, x.index ≠ b.index) :
    ∀ i, (l1 ++ b :: l2).findIdx? (fun x => x.index = b.index) i = some (i + l1.length) := by
  induction l1 with
  | nil =>
    intro i
    rw [List.nil_append, List.findIdx?_cons]
    simp
  | cons a l1 ih =>
    intro i
    have ha : ¬(a.index = b.index) := h a (List.mem_cons_self _ _)
    have h' : ∀ x ∈ l1, x.index ≠ b.index := fun x hx => h x (List.mem_cons_of_mem _ hx)
    simp only [List.cons_append, List.findIdx?_cons, decide_eq_true_eq, if_neg ha]
    rw [ih h' (i + 1)]
    congr 1
    simp only [List.length_cons]
    omega

theorem drop_append_cons_length {α : Type} (l1 l2 : List α) (b : α) :
    (l1 ++ b :: l2).drop (l1.length + 1) = l2 := by
  have h : l1 ++ b :: l2 = (l1 ++ [b]) ++ l2 := by simp
  rw [h, show l1.length + 1 = (l1 ++ [b]).length by simp, List.drop_left]

theorem sublist_filter_eq {α : Type} {l' l : List α} (hsub : List.Sublist l' l)
    (hnd : l.Nodup) (p : α → Bool) (hcomp : ∀ x ∈ l, p x = true → x ∈ l') :
    l'.filter p = l.filter p := by
  induction hsub with
  | slnil => rfl
  | cons a hsub ih =>
    rename_i l' l
    have ha : p a = false := by
      by_contra hpa
      have hpa : p a = true := by revert hpa; cases p a <;> simp
      have := hcomp a (List.mem_cons_self _ _) hpa
      exact (List.nodup_cons.mp hnd).1 (hsub.subset this)
    rw [List.filter_cons, if_neg (by simp [ha])]
    exact ih (List.nodup_cons.mp hnd).2
      (fun x hx hpx => hcomp x (List.mem_cons_of_mem _ hx) hpx)
  | cons₂ a hsub ih =>
    rename_i l' l
    rw [List.filter_cons, List.filter_cons]
    have htail : l'.filter p = l.filter p := by
      refine ih (List.nodup_cons.mp hnd).2 ?_
      intro x hx hpx
      rcases List.mem_cons.mp (hcomp x (List.mem_cons_of_mem _ hx) hpx) with rfl | hx'
      · exact absurd hx (List.nodup_cons.mp hnd).1
      · exact hx'
    rw [htail]

theorem filterMap_guard {α β : Type} (p : α → Bool) (q : α → β) (l : List α) :
    l.filterMap (fun a => if p a then some (q a) else none) = (l.filter p).map q := by
  induction l with
  | nil => rfl
  | cons a l ih =>
    simp only [List.filterMap_cons, List.filter_cons]
    cases hpa : p a with
    | true => simp [hpa, ih]
    | false => simp [hpa, ih]

theorem nextReturn_iff {blocks : List ScopeBlock} {b : ScopeBlock}
    (hlt : List.Pairwise (fun a c => a.index < c.index) blocks) (hb : b ∈ blocks) :
    ((match blocks.findIdx? (fun x : ScopeBlock => x.index = b.index) with
      | some n => blocks.drop (n + 1)
      | none => blocks).find? (fun x : ScopeBlock => x.type = BlockType.RETURN) = none)
    ↔ ∀ r ∈ blocks, r.type = .RETURN → ¬(b.index < r.index) := by
  obtain ⟨l1, l2, rfl⟩ := List.append_of_mem hb
  rw [List.pairwise_append] at hlt
  rcases hlt with ⟨h1, h2, h12⟩
  have hl1b : ∀ x ∈ l1, x.index < b.index := fun x hx => h12 x hx b (List.mem_cons_self _ _)
  have hbl2 : ∀ y ∈ l2, b.index < y.index := (List.pairwise_cons.mp h2).1
  rw [findIdx?_append_cons (fun x hx => by have := hl1b x hx; omega) 0]
  simp only [Nat.zero_add]
  rw [drop_append_cons_length]
  rw [List.find?_eq_none]
  constructor
  · intro hnone r hr hrt
    rcases List.mem_append.mp hr with hr | hr
    · have := hl1b r hr; omega
    · rcases List.mem_cons.mp hr with rfl | hr
      · omega
      · exact absurd (by simp [hrt]) (hnone r hr)
  · intro hall x hx
    simp only [decide_eq_true_eq]
    intro hxt
    exact (hall x (List.mem_append.mpr (Or.inr (List.mem_cons_of_mem _ hx))) hxt)
      (hbl2 x hx)

theorem missingReturnEmit_eq {blocks : List ScopeBlock}
    (hlt : List.Pairwise (fun a c => a.index < c.index) blocks)
    {v : VarContext} (hvb : v.block ∈ blocks) (hvt : v.block.type = .VAR) :
    missingReturnEmit blocks (defineEvaluateRanges blocks) v =
      if codeMissingReturn blocks v.block then some (missingReturnDiag v.block)
      else none := by
  unfold missingReturnEmit codeMissingReturn
  by_cases hdef : isInDefineBlock (defineEvaluateRanges blocks) v.block.index
  · simp [hdef]
  · rw [if_neg (by simp [hdef])]
    by_cases hany : (blocks.any fun r =>
        decide (r.type = .RETURN) && decide (v.block.index < r.index)) = true
    · have hnotall : ¬∀ r ∈ blocks, r.type = .RETURN → ¬(v.block.index < r.index) := by
        rcases List.any_eq_true.mp hany with ⟨r, hr, hcond⟩
        simp only [Bool.and_eq_true, decide_eq_true_eq] at hcond
        intro hall
        exact hall r hr hcond.1 hcond.2
      have hne := (not_iff_not.mpr (nextReturn_iff hlt hvb)).mpr hnotall
      rcases hopt : (match blocks.findIdx? (fun x : ScopeBlock => x.index = v.block.index) with
        | some n => blocks.drop (n + 1)
        | none => blocks).find? (fun x : ScopeBlock => x.type = BlockType.RETURN) with _ | r
      · exact absurd hopt hne
      · rw [hopt]
        simp [hany]
    · have hall : ∀ r ∈ blocks, r.type = .RETURN → ¬(v.block.index < r.index) := by
        have hany' : (blocks.any fun r =>
            decide (r.type = .RETURN) && decide (v.block.index < r.index)) = false := by
          revert hany; cases blocks.any _ <;> simp
        rw [List.any_eq_false] at hany'
        intro r hr hrt hlt'
        exact (hany' r hr) (by simp [hrt, hlt'])
      rw [(nextReturn_iff hlt hvb).mpr hall]
      have hany' : (blocks.any fun r =>
          decide (r.type = .RETURN) && decide (v.block.index < r.index)) = false := by
        revert hany; cases blocks.any _ <;> simp
      simp [hdef, hany', hvt]

/-- C1 amended: for every text and exclusion list, the scope diagnostics are
exactly one missing-return error per VAR block that is not inside a
DEFINE…EVALUATE pair and has NO RETURN block anywhere after it in the text —
the parenthesis-depth stack pass never changes the outcome, and a subsequent
RETURN at any depth (even one that could not close the VAR) suppresses the
diagnostic. -/
theorem C1_amended (text : List Char) (excl : List ExclusionRange) :
    runScopeDiagnostics text (findScopeBlocks text excl) =
      ((findScopeBlocks text excl).filter
        (codeMissingReturn (findScopeBlocks text excl))).map missingReturnDiag := by
  have hlt := findScopeBlocks_index_lt text excl
  have hnd := findScopeBlocks_nodup text excl
  generalize hBL : findScopeBlocks text excl = blocks at hlt hnd ⊢
  unfold runScopeDiagnostics
  have hmem : ∀ v ∈ (finalVarStack text blocks).reverse,
      v.block ∈ blocks ∧ v.block.type = .VAR := by
    intro v hv
    rcases mem_foldl_scopeStep text blocks [] v (List.mem_reverse.mp hv) with h | h
    · cases h
    · exact h
  rw [List.filterMap_congr (g := fun v =>
      if codeMissingReturn blocks v.block then some (missingReturnDiag v.block) else none)
    (fun v hv => missingReturnEmit_eq hlt (hmem v hv).1 (hmem v hv).2)]
  have hcomp1 : (fun (v : VarContext) =>
      if codeMissingReturn blocks v.block then some (missingReturnDiag v.block) else none) =
      ((fun b => if codeMissingReturn blocks b then some (missingReturnDiag b) else none) ∘
        (fun v : VarContext => v.block)) := rfl
  rw [hcomp1, ← List.filterMap_map, filterMap_guard]
  congr 1
  refine sublist_filter_eq ?_ hnd _ ?_
  · have := stack_blocks_sublist text blocks []
    simpa using this
  · intro b hbmem hcode
    unfold codeMissingReturn at hcode
    simp only [Bool.and_eq_true, Bool.not_eq_true', decide_eq_true_eq] at hcode
    rcases hcode with ⟨⟨hvar, _⟩, hany⟩
    rw [List.any_eq_false] at hany
    obtain ⟨l1, l2, hdecomp⟩ := List.append_of_mem hbmem
    have hbl2 : ∀ y ∈ l2, b.index < y.index := by
      have hlt' := hdecomp ▸ hlt
      rw [List.pairwise_append] at hlt'
      exact (List.pairwise_cons.mp hlt'.2.1).1
    have hnoret : ∀ r ∈ l2, r.type ≠ .RETURN := by
      intro r hr hrt
      have hmm := hany r (hdecomp ▸ List.mem_append.mpr (Or.inr (List.mem_cons_of_mem _ hr)))
      simp only [Bool.and_eq_true, decide_eq_true_eq, not_and] at hmm
      exact hmm hrt (hbl2 r hr)
    rw [List.mem_map]
    have hctx : (⟨b, getParenDepth text b.index⟩ : VarContext) ∈
        finalVarStack text blocks := by
      rw [hdecomp]
      unfold finalVarStack
      rw [List.foldl_append, List.foldl_cons]
      refine mem_foldl_scopeStep_of_no_return text l2 _ _ ?_ hnoret
      unfold scopeStep
      rw [hvar]
      exact List.mem_cons_self _ _
    exact ⟨⟨b, getParenDepth text b.index⟩, List.mem_reverse.mpr hctx, rfl⟩

/-! ## Symbol-table invariant machinery -/

/-- The key a stored record answers to. -/
def keyOfRec (r : SymRec) : List Char := getKey r.name r.kind r.tableContext

theorem assocUpdate_const_mem {κ β : Type} [DecidableEq κ] {k : κ} {v : β}
    {l : List (κ × β)} : ∀ p ∈ assocUpdate k (fun _ => v) l, p = (k, v) ∨ p ∈ l := by
  induction l with
  | nil => intro p hp; cases hp
  | cons q rest ih =>
    intro p hp
    unfold assocUpdate at hp
    rcases q with ⟨k', v'⟩
    by_cases hk : k' = k
    · rw [if_pos hk] at hp
      rcases List.mem_cons.mp hp with rfl | hp'
      · exact Or.inl (by rw [hk])
      · exact Or.inr (List.mem_cons_of_mem _ hp')
    · rw [if_neg hk] at hp
      rcases List.mem_cons.mp hp with rfl | hp'
      · exact Or.inr (List.mem_cons_self _ _)
      · rcases ih p hp' with h | h
        · exact Or.inl h
        · exact Or.inr (List.mem_cons_of_mem _ h)

theorem assocSet_mem {κ β : Type} [DecidableEq κ] {k : κ} {v : β} {l : List (κ × β)} :
    ∀ p ∈ assocSet k v l, p = (k, v) ∨ p ∈ l := by
  unfold assocSet
  split
  · exact fun p hp => assocUpdate_const_mem p hp
  · intro p hp
    rcases List.mem_append.mp hp with hp | hp
    · exact Or.inr hp
    · exact Or.inl (List.mem_singleton.mp hp)

theorem assocUpdate_const_self_mem {κ β : Type} [DecidableEq κ] {k : κ} {v : β}
    {l : List (κ × β)} (hex : ∃ p ∈ l, p.1 = k) :
    (k, v) ∈ assocUpdate k (fun _ => v) l := by
  induction l with
  | nil => rcases hex with ⟨p, hp, _⟩; cases hp
  | cons q rest ih =>
    unfold assocUpdate
    rcases q with ⟨k', v'⟩
    by_cases hk : k' = k
    · rw [if_pos hk, hk]
      exact List.mem_cons_self _ _
    · rw [if_neg hk]
      rcases hex with ⟨p, hp, hpk⟩
      rcases List.mem_cons.mp hp with rfl | hp'
      · exact absurd hpk hk
      · exact List.mem_cons_of_mem _ (ih ⟨p, hp', hpk⟩)

theorem assocSet_self_mem {κ β : Type} [DecidableEq κ] (k : κ) (v : β) (l : List (κ × β)) :
    (k, v) ∈ assocSet k v l := by
  unfold assocSet
  split
  · rename_i hhas
    unfold assocHas at hhas
    rcases Option.isSome_iff_exists.mp hhas with ⟨p, hp⟩
    have hpl := List.mem_of_find?_eq_some hp
    have hpk : p.1 = k := by
      have := List.find?_some hp
      exact of_decide_eq_true this
    exact assocUpdate_const_self_mem ⟨p, hpl, hpk⟩
  · exact List.mem_append.mpr (Or.inr (List.mem_singleton.mpr rfl))

theorem assocUpdate_mem_of_ne {κ β : Type} [DecidableEq κ] {k : κ} {f : β → β}
    {l : List (κ × β)} {p : κ × β} (hp : p ∈ l) (hne : p.1 ≠ k) :
    p ∈ assocUpdate k f l := by
  induction l with
  | nil => cases hp
  | cons q rest ih =>
    unfold assocUpdate
    rcases q with ⟨k', v'⟩
    rcases List.mem_cons.mp hp with rfl | hp'
    · rw [if_neg (by simpa using hne)]
      exact List.mem_cons_self _ _
    · by_cases hk : k' = k
      · rw [if_pos hk]
        exact List.mem_cons_of_mem _ hp'
      · rw [if_neg hk]
        exact List.mem_cons_of_mem _ (ih hp')

theorem assocSet_mem_of_ne {κ β : Type} [DecidableEq κ] {k : κ} {v : β} {l : List (κ × β)}
    {p : κ × β} (hp : p ∈ l) (hne : p.1 ≠ k) : p ∈ assocSet k v l := by
  unfold assocSet
  split
  · exact assocUpdate_mem_of_ne hp hne
  · exact List.mem_append.mpr (Or.inl hp)

theorem assocUpdate_fst {κ β : Type} [DecidableEq κ] (k : κ) (f : β → β) (l : List (κ × β)) :
    (assocUpdate k f l).map Prod.fst = l.map Prod.fst := by
  induction l with
  | nil => rfl
  | cons q rest ih =>
    unfold assocUpdate
    rcases q with ⟨k', v'⟩
    split <;> simp [ih]

theorem assocSet_fst_nodup {κ β : Type} [DecidableEq κ] {k : κ} {v : β} {l : List (κ × β)}
    (h : (l.map Prod.fst).Nodup) : ((assocSet k v l).map Prod.fst).Nodup := by
  unfold assocSet
  split
  · rw [assocUpdate_fst]; exact h
  · rename_i hhas
    simp only [List.map_append, List.map_cons, List.map_nil]
    rw [List.nodup_append]
    refine ⟨h, List.nodup_singleton _, ?_⟩
    intro a ha hb
    rcases List.mem_singleton.mp hb with rfl
    rcases List.mem_map.mp ha with ⟨p, hp, hpk⟩
    have hsome : (l.find? (fun q => decide (q.1 = a))).isSome :=
      List.find?_isSome.mpr ⟨p, hp, by simp [hpk]⟩
    simp [assocHas, hsome] at hhas

theorem assocUpdate_const_snd_mem {κ β : Type} [DecidableEq κ] {k : κ} {v : β}
    {l : List (κ × β)} {x : β}
    (hx : x ∈ (assocUpdate k (fun _ => v) l).map Prod.snd) :
    x = v ∨ x ∈ l.map Prod.snd := by
  induction l with
  | nil => cases hx
  | cons q rest ih =>
    unfold assocUpdate at hx
    rcases q with ⟨k', v'⟩
    by_cases hk : k' = k
    · rw [if_pos hk] at hx
      rcases List.mem_cons.mp hx with rfl | hx'
      · exact Or.inl rfl
      · exact Or.inr (List.mem_cons_of_mem _ hx')
    · rw [if_neg hk] at hx
      rcases List.mem_cons.mp hx with rfl | hx'
      · exact Or.inr (List.mem_cons_self _ _)
      · rcases ih hx' with h | h
        · exact Or.inl h
        · exact Or.inr (List.mem_cons_of_mem _ h)

theorem assocSet_snd_nodup {κ β : Type} [DecidableEq κ] {k : κ} {v : β} {l : List (κ × β)}
    (h : (l.map Prod.snd).Nodup) (hv : v ∉ l.map Prod.snd) :
    ((assocSet k v l).map Prod.snd).Nodup := by
  unfold assocSet
  split
  · clear * - h hv
    induction l with
    | nil => simp [assocUpdate]
    | cons q rest ih =>
      unfold assocUpdate
      rcases q with ⟨k', v'⟩
      simp only [List.map_cons, List.nodup_cons, List.mem_cons] at h hv
      push_neg at hv
      by_cases hk : k' = k
      · rw [if_pos hk]
        simp only [List.map_cons, List.nodup_cons]
        exact ⟨hv.2, h.2⟩
      · rw [if_neg hk]
        simp only [List.map_cons, List.nodup_cons]
        refine ⟨?_, ih h.2 hv.2⟩
        intro hmem
        rcases assocUpdate_const_snd_mem hmem with rfl | hmem'
        · exact hv.1 rfl
        · exact h.1 hmem'
  · simp only [List.map_append, List.map_cons, List.map_nil]
    rw [List.nodup_append]
    exact ⟨h, List.nodup_singleton _, fun a ha hb =>
      (by rcases List.mem_singleton.mp hb with rfl; exact hv ha)⟩

theorem assocGet_mem {κ β : Type} [DecidableEq κ] {k : κ} {l : List (κ × β)} {v : β}
    (h : assocGet k l = some v) : (k, v) ∈ l := by
  unfold assocGet at h
  rcases Option.map_eq_some'.mp h with ⟨p, hp, hpv⟩
  have hpl := List.mem_of_find?_eq_some hp
  have hpk' := List.find?_some hp
  simp only [decide_eq_true_eq] at hpk'
  have hpk : p.1 = k := hpk'
  have : p = (k, v) := by
    rcases p with ⟨a, b⟩
    simp only at hpk hpv
    rw [hpk, hpv]
  exact this ▸ hpl

theorem assocGet_eq_some_of_mem {κ β : Type} [DecidableEq κ] {k : κ} {v : β}
    {l : List (κ × β)} (hmem : (k, v) ∈ l) (hnd : (l.map Prod.fst).Nodup) :
    assocGet k l = some v := by
  induction l with
  | nil => cases hmem
  | cons q rest ih =>
    rcases q with ⟨k', v'⟩
    simp only [List.map_cons, List.nodup_cons] at hnd
    unfold assocGet
    by_cases hk : k' = k
    · subst hk
      rcases List.mem_cons.mp hmem with heq | hmem'
      · have hv' : v' = v := (congrArg Prod.snd heq).symm
        subst hv'
        rw [List.find?_cons_of_pos _ (by simp)]
        rfl
      · exact absurd (List.mem_map.mpr ⟨(k', v), hmem', rfl⟩) hnd.1
    · rcases List.mem_cons.mp hmem with heq | hmem'
      · exact absurd (congrArg Prod.fst heq).symm hk
      · rw [List.find?_cons_of_neg _ (by simp [hk])]
        exact ih hmem' hnd.2

theorem assocGet_none {κ β : Type} [DecidableEq κ] {k : κ} {l : List (κ × β)}
    (h : assocGet k l = none) : ∀ v, (k, v) ∉ l := by
  intro v hv
  unfold assocGet at h
  rw [Option.map_eq_none'] at h
  rw [List.find?_eq_none] at h
  exact h (k, v) hv (by simp)

/-- Key structure: a key equal to a table key forces a Table record with a
case-insensitively equal name. -/
theorem getKey_eq_table {n ctx : List Char} {k : SymbolKind} {c : Option (List Char)}
    (h : getKey n k c = getKey ctx .Table none) : k = .Table ∧ upper n = upper ctx := by
  cases k with
  | Variable => simp [getKey, kindChars] at h
  | Table =>
    refine ⟨rfl, ?_⟩
    simpa [getKey, kindChars] using h
  | Column =>
    rcases c with _ | ctx'
    · simp [getKey, kindChars] at h
    · by_cases hc : ctx' = [] <;> simp [getKey, kindChars, hc] at h
  | Measure => simp [getKey, kindChars] at h

theorem getKey_table_congr {n ctx : List Char} (h : upper n = upper ctx) :
    getKey n .Table none = getKey ctx .Table none := by
  simp [getKey, kindChars, h]

/-- Immutable fields of a record agree between two states. -/
def fieldsEq (a b : SymRec) : Prop :=
  a.name = b.name ∧ a.kind = b.kind ∧ a.tableContext = b.tableContext

/-- The loop test of the `Table` branch, at a given id. -/
def colMatches (st : SymState) (tname : List Char) (vid : Nat) : Bool :=
  decide ((st.arena vid).kind = .Column) &&
    decide (((st.arena vid).tableContext.map upper) = some (upper tname))

theorem linkParentChild_spec (parentId childId : Nat) (st : SymState)
    (hne : parentId ≠ childId) :
    (linkParentChild parentId childId st).len = st.len ∧
    (linkParentChild parentId childId st).keys = st.keys ∧
    (∀ i, fieldsEq ((linkParentChild parentId childId st).arena i) (st.arena i)) ∧
    ((linkParentChild parentId childId st).arena parentId).children =
      (if (st.arena parentId).children.contains childId then (st.arena parentId).children
       else (st.arena parentId).children ++ [childId]) ∧
    (∀ i, i ≠ parentId →
      ((linkParentChild parentId childId st).arena i).children = (st.arena i).children) ∧
    ((linkParentChild parentId childId st).arena childId).parent = some parentId ∧
    (∀ i, i ≠ childId →
      ((linkParentChild parentId childId st).arena i).parent = (st.arena i).parent) := by
  unfold linkParentChild
  dsimp only
  refine ⟨rfl, rfl, ?_, ?_, ?_, ?_, ?_⟩
  · intro i
    unfold fieldsEq
    by_cases hic : i = childId
    · subst hic
      rw [Function.update_same, Function.update_noteq (Ne.symm hne)]
      exact ⟨rfl, rfl, rfl⟩
    · rw [Function.update_noteq hic]
      by_cases hip : i = parentId
      · subst hip
        rw [Function.update_same]
        exact ⟨rfl, rfl, rfl⟩
      · rw [Function.update_noteq hip]
        exact ⟨rfl, rfl, rfl⟩
  · rw [Function.update_noteq hne, Function.update_same]
  · intro i hip
    by_cases hic : i = childId
    · subst hic
      rw [Function.update_same, Function.update_noteq hip]
    · rw [Function.update_noteq hic, Function.update_noteq hip]
  · rw [Function.update_same]
  · intro i hic
    rw [Function.update_noteq hic]
    by_cases hip : i = parentId
    · subst hip
      rw [Function.update_same]
    · rw [Function.update_noteq hip]

theorem colMatches_congr {st st' : SymState} {tname : List Char}
    (h : ∀ i, fieldsEq (st'.arena i) (st.arena i)) (vid : Nat) :
    colMatches st' tname vid = colMatches st tname vid := by
  unfold colMatches
  rw [(h vid).2.1, (h vid).2.2]

theorem linkColumnsLoop_spec (tableId : Nat) (tname : List Char) :
    ∀ (L : List (List Char × Nat)) (st : SymState),
      (st.arena tableId).kind = .Table →
      (L.map Prod.snd).Nodup →
      (∀ q ∈ L, q.2 ∉ (st.arena tableId).children) →
      (linkColumnsLoop tableId tname L st).len = st.len ∧
      (linkColumnsLoop tableId tname L st).keys = st.keys ∧
      (∀ i, fieldsEq ((linkColumnsLoop tableId tname L st).arena i) (st.arena i)) ∧
      (∀ i, i ≠ tableId →
        ((linkColumnsLoop tableId tname L st).arena i).children = (st.arena i).children) ∧
      (((linkColumnsLoop tableId tname L st).arena tableId).children =
        (st.arena tableId).children ++
          (L.filter (fun q => colMatches st tname q.2)).map Prod.snd) ∧
      (∀ q ∈ L, colMatches st tname q.2 = true →
        ((linkColumnsLoop tableId tname L st).arena q.2).parent = some tableId) ∧
      (∀ i, (∀ q ∈ L, colMatches st tname q.2 = true → q.2 ≠ i) →
        ((linkColumnsLoop tableId tname L st).arena i).parent = (st.arena i).parent) := by
  intro L
  induction L with
  | nil =>
    intro st _ _ _
    refine ⟨rfl, rfl, fun i => ⟨rfl, rfl, rfl⟩, fun i _ => rfl, by simp [linkColumnsLoop],
      fun q hq => absurd hq (List.not_mem_nil q), fun i _ => rfl⟩
  | cons q rest ih =>
    intro st hkind hnd hnotin
    simp only [List.map_cons, List.nodup_cons] at hnd
    have hloop : linkColumnsLoop tableId tname (q :: rest) st =
        (if colMatches st tname q.2 then
          linkColumnsLoop tableId tname rest (linkParentChild tableId q.2 st)
        else linkColumnsLoop tableId tname rest st) := by
      conv_lhs => rw [linkColumnsLoop]
      rfl
    rw [hloop]
    by_cases hq : colMatches st tname q.2 = true
    · rw [if_pos hq]
      have hqcol : (st.arena q.2).kind = .Column := by
        unfold colMatches at hq
        simp only [Bool.and_eq_true, decide_eq_true_eq] at hq
        exact hq.1
      have hneq : tableId ≠ q.2 := by
        intro h
        rw [← h] at hqcol
        rw [hkind] at hqcol
        cases hqcol
      rcases linkParentChild_spec tableId q.2 st hneq with
        ⟨hlen1, hkeys1, hfields1, hchildT1, hchildO1, hpar1, hparO1⟩
      have hcontains : (st.arena tableId).children.contains q.2 = false := by
        rcases hc : (st.arena tableId).children.contains q.2 with _ | _
        · rfl
        · exact absurd (List.mem_of_elem_eq_true hc)
            (hnotin q (List.mem_cons_self _ _))
      rw [hcontains] at hchildT1
      simp only [Bool.false_eq_true, if_false] at hchildT1
      have hkind1 : ((linkParentChild tableId q.2 st).arena tableId).kind = .Table := by
        rw [(hfields1 tableId).2.1, hkind]
      have hnotin1 : ∀ q' ∈ rest, q'.2 ∉
          ((linkParentChild tableId q.2 st).arena tableId).children := by
        intro q' hq'
        rw [hchildT1]
        intro hmem
        rcases List.mem_append.mp hmem with h | h
        · exact hnotin q' (List.mem_cons_of_mem _ hq') h
        · rcases List.mem_singleton.mp h with heq
          exact hnd.1 (List.mem_map.mpr ⟨q', hq', heq⟩)
      rcases ih (linkParentChild tableId q.2 st) hkind1 hnd.2 hnotin1 with
        ⟨hlen2, hkeys2, hfields2, hchildO2, hchildT2, hpar2, hparO2⟩
      have hmc : ∀ vid, colMatches (linkParentChild tableId q.2 st) tname vid =
          colMatches st tname vid := colMatches_congr hfields1
      refine ⟨hlen2.trans hlen1, hkeys2.trans hkeys1, ?_, ?_, ?_, ?_, ?_⟩
      · intro i
        rcases hfields2 i with ⟨f1, f2, f3⟩
        rcases hfields1 i with ⟨g1, g2, g3⟩
        exact ⟨f1.trans g1, f2.trans g2, f3.trans g3⟩
      · intro i hi
        rw [hchildO2 i hi, hchildO1 i hi]
      · rw [hchildT2, hchildT1]
        have hfilter : rest.filter
              (fun q' => colMatches (linkParentChild tableId q.2 st) tname q'.2) =
            rest.filter (fun q' => colMatches st tname q'.2) := by
          apply List.filter_congr
          intro x _
          rw [hmc]
        rw [hfilter, List.filter_cons, if_pos (by simp [hq])]
        simp
      · intro q' hq' hmatch
        rcases List.mem_cons.mp hq' with rfl | hq''
        · rw [hparO2 q'.2 (fun r hr hmr hre => ?_), hpar1]
          have : r.2 ∈ rest.map Prod.snd := List.mem_map.mpr ⟨r, hr, rfl⟩
          rw [hre] at this
          exact hnd.1 this
        · exact hpar2 q' hq'' (by rw [hmc]; exact hmatch)
      · intro i hi
        rw [hparO2 i (fun r hr hmr => hi r (List.mem_cons_of_mem _ hr)
          (by rw [← hmc]; exact hmr)),
          hparO1 i ?_]
        intro heq
        exact hi q (List.mem_cons_self _ _) hq heq.symm
    · have hq' : colMatches st tname q.2 = false := by
        revert hq; cases colMatches st tname q.2 <;> simp
      rw [if_neg (by simp [hq'])]
      rcases ih st hkind hnd.2 (fun q' hq'' => hnotin q' (List.mem_cons_of_mem _ hq'')) with
        ⟨hlen2, hkeys2, hfields2, hchildO2, hchildT2, hpar2, hparO2⟩
      refine ⟨hlen2, hkeys2, hfields2, hchildO2, ?_, ?_, ?_⟩
      · rw [hchildT2, List.filter_cons, if_neg (by simp [hq'])]
      · intro p hp hmatch
        rcases List.mem_cons.mp hp with rfl | hp'
        · rw [hq'] at hmatch
          cases hmatch
        · exact hpar2 p hp' hmatch
      · intro i hi
        exact hparO2 i (fun r hr hmr => hi r (List.mem_cons_of_mem _ hr) hmr)

/-! ## The symbol-table linking invariant (claim C10) -/

/-- The record inserted for a call, before any hierarchy handling. -/
def freshRec (s : SymInput) : SymRec :=
  { name := s.name, kind := s.kind, tableContext := s.tableContext
    parent := none, children := [] }

/-- The state right after the `set` line of `addSymbol`. -/
def insertState (st : SymState) (s : SymInput) : SymState :=
  { len := st.len + 1
    arena := Function.update st.arena st.len (freshRec s)
    keys := assocSet (getKey s.name s.kind s.tableContext) st.len st.keys }

theorem addSymbol_eq (st : SymState) (s : SymInput) :
    addSymbol st s =
      (if s.kind = .Column && truthyCtx s.tableContext then
        match s.tableContext with
        | some ctx =>
          match assocGet (getKey ctx .Table none) (insertState st s).keys with
          | some tableId => linkParentChild tableId st.len (insertState st s)
          | none => insertState st s
        | none => insertState st s
      else if s.kind = .Table then
        linkColumnsLoop st.len s.name (insertState st s).keys (insertState st s)
      else insertState st s) := rfl

/-- Structural invariants of the symbol-table state maintained by `addSymbol`. -/
structure SymInvBase (st : SymState) : Prop where
  idsLt : ∀ p ∈ st.keys, p.2 < st.len
  keyCons : ∀ p ∈ st.keys, p.1 = keyOfRec (st.arena p.2)
  fstNodup : (st.keys.map Prod.fst).Nodup
  sndNodup : (st.keys.map Prod.snd).Nodup
  childLt : ∀ i, ∀ c ∈ (st.arena i).children, c < st.len
  childNodup : ∀ i, (st.arena i).children.Nodup

/-- The full inductive invariant: structure plus the linking property. -/
structure SymInv (st : SymState) : Prop where
  base : SymInvBase st
  main : symTableInvariant st

theorem assoc_fst_nodup_inj {κ β : Type} [DecidableEq κ] {l : List (κ × β)}
    (hnd : (l.map Prod.fst).Nodup) {k : κ} {a b : β}
    (ha : (k, a) ∈ l) (hb : (k, b) ∈ l) : a = b := by
  induction l with
  | nil => cases ha
  | cons q rest ih =>
    simp only [List.map_cons, List.nodup_cons] at hnd
    rcases List.mem_cons.mp ha with ha1 | ha'
    · rcases List.mem_cons.mp hb with hb1 | hb'
      · exact congrArg Prod.snd (ha1.trans hb1.symm)
      · exfalso
        apply hnd.1
        rw [← ha1]
        exact List.mem_map.mpr ⟨(k, b), hb', rfl⟩
    · rcases List.mem_cons.mp hb with hb1 | hb'
      · exfalso
        apply hnd.1
        rw [← hb1]
        exact List.mem_map.mpr ⟨(k, a), ha', rfl⟩
      · exact ih hnd.2 ha' hb'

theorem getKey_table_any (n : List Char) (c : Option (List Char)) :
    getKey n .Table c = getKey n .Table none := by
  cases c <;> rfl

theorem keyOfRec_fieldsEq {a b : SymRec} (h : fieldsEq a b) : keyOfRec a = keyOfRec b := by
  unfold keyOfRec
  rw [h.1, h.2.1, h.2.2]

theorem insertState_arena_self (st : SymState) (s : SymInput) :
    (insertState st s).arena st.len = freshRec s := by
  unfold insertState
  exact Function.update_same _ _ _

theorem insertState_arena_ne (st : SymState) (s : SymInput) {i : Nat} (hi : i ≠ st.len) :
    (insertState st s).arena i = st.arena i := by
  unfold insertState
  exact Function.update_noteq hi _ _

theorem insertState_keys_split {st : SymState} {s : SymInput} (h : SymInvBase st) :
    ∀ p ∈ (insertState st s).keys,
      p = (getKey s.name s.kind s.tableContext, st.len) ∨ (p ∈ st.keys ∧ p.2 < st.len) := by
  have hkeys : (insertState st s).keys
      = assocSet (getKey s.name s.kind s.tableContext) st.len st.keys := rfl
  intro p hp
  rw [hkeys] at hp
  rcases assocSet_mem p hp with h1 | h1
  · exact Or.inl h1
  · exact Or.inr ⟨h1, h.idsLt p h1⟩

theorem insertState_base {st : SymState} (s : SymInput) (h : SymInvBase st) :
    SymInvBase (insertState st s) := by
  have hkeys : (insertState st s).keys
      = assocSet (getKey s.name s.kind s.tableContext) st.len st.keys := rfl
  have hlen : (insertState st s).len = st.len + 1 := rfl
  have hsnd : st.len ∉ st.keys.map Prod.snd := by
    intro hm
    rcases List.mem_map.mp hm with ⟨p, hp, hps⟩
    exact absurd (hps ▸ h.idsLt p hp) (lt_irrefl st.len)
  refine ⟨?_, ?_, ?_, ?_, ?_, ?_⟩
  · intro p hp
    rw [hlen]
    rcases insertState_keys_split h p hp with rfl | ⟨_, hlt⟩
    · exact Nat.lt_succ_self _
    · exact Nat.lt_succ_of_lt hlt
  · intro p hp
    rcases insertState_keys_split h p hp with rfl | ⟨hp0, hlt⟩
    · show getKey s.name s.kind s.tableContext = keyOfRec ((insertState st s).arena st.len)
      rw [insertState_arena_self]
      rfl
    · rw [insertState_arena_ne st s (Nat.ne_of_lt hlt)]
      exact h.keyCons p hp0
  · rw [hkeys]
    exact assocSet_fst_nodup h.fstNodup
  · rw [hkeys]
    exact assocSet_snd_nodup h.sndNodup hsnd
  · intro i c hc
    rw [hlen]
    by_cases hi : i = st.len
    · subst hi
      rw [insertState_arena_self] at hc
      cases hc
    · rw [insertState_arena_ne st s hi] at hc
      exact Nat.lt_succ_of_lt (h.childLt i c hc)
  · intro i
    by_cases hi : i = st.len
    · subst hi
      rw [insertState_arena_self]
      exact List.nodup_nil
    · rw [insertState_arena_ne st s hi]
      exact h.childNodup i

theorem emptySymState_inv : SymInv emptySymState := by
  refine ⟨⟨?_, ?_, ?_, ?_, ?_, ?_⟩, ?_⟩
  · intro p hp
    exact absurd hp (List.not_mem_nil p)
  · intro p hp
    exact absurd hp (List.not_mem_nil p)
  · exact List.nodup_nil
  · exact List.nodup_nil
  · intro i c hc
    have hd : (emptySymState.arena i).children = [] := rfl
    rw [hd] at hc
    cases hc
  · intro i
    have hd : (emptySymState.arena i).children = [] := rfl
    rw [hd]
    exact List.nodup_nil
  · intro ck cid hc
    exact absurd hc (List.not_mem_nil _)

/-- The key of a registered table entry is the table key of any string whose
upper-casing matches its name. -/
theorem table_key_eq {st : SymState} (hb : SymInvBase st) {tk : List Char} {tid : Nat}
    (hmem : (tk, tid) ∈ st.keys) (hkind : (st.arena tid).kind = .Table)
    {ctx : List Char} (hup : upper ctx = upper ((st.arena tid).name)) :
    tk = getKey ctx .Table none := by
  have h1 : tk = keyOfRec (st.arena tid) := hb.keyCons (tk, tid) hmem
  unfold keyOfRec at h1
  rw [hkind, getKey_table_any] at h1
  rw [h1]
  exact getKey_table_congr hup.symm

/-- The linking clause for a column and a table that both predate the new
symbol: untouched by the insertion. -/
theorem insert_main_old {st : SymState} {s : SymInput} (hb : SymInvBase st)
    (hmain : symTableInvariant st)
    {ck : List Char} {cid : Nat} (hcmem : (ck, cid) ∈ (insertState st s).keys)
    (hcid_ne : cid ≠ st.len)
    (hckind : ((insertState st s).arena cid).kind = .Column)
    {ctx' : List Char} (hctx' : ((insertState st s).arena cid).tableContext = some ctx')
    (hctxne' : ctx' ≠ [])
    {tk : List Char} {tid : Nat} (htmem : (tk, tid) ∈ (insertState st s).keys)
    (htid_ne : tid ≠ st.len)
    (htkind : ((insertState st s).arena tid).kind = .Table)
    (hup : upper ctx' = upper (((insertState st s).arena tid).name)) :
    ((insertState st s).arena cid).parent = some tid ∧
      ((insertState st s).arena tid).children.count cid = 1 := by
  rcases insertState_keys_split hb (ck, cid) hcmem with heq | ⟨hcmem0, _⟩
  · exact absurd (congrArg Prod.snd heq) hcid_ne
  rcases insertState_keys_split hb (tk, tid) htmem with heq | ⟨htmem0, _⟩
  · exact absurd (congrArg Prod.snd heq) htid_ne
  rw [insertState_arena_ne st s hcid_ne] at hckind hctx'
  rw [insertState_arena_ne st s htid_ne] at htkind hup
  rw [insertState_arena_ne st s hcid_ne, insertState_arena_ne st s htid_ne]
  exact hmain ck cid hcmem0 hckind ctx' hctx' hctxne' tk tid htmem0 htkind hup

/-- `addSymbol` on a variable, a measure, or a column without a truthy
context preserves the invariant. -/
theorem plainAdd_inv {st : SymState} {s : SymInput} (hb : SymInvBase st)
    (hmain : symTableInvariant st) (hb1 : SymInvBase (insertState st s))
    (hnc : ¬(s.kind = .Column ∧ truthyCtx s.tableContext = true))
    (hnt : ¬s.kind = .Table) :
    SymInv (insertState st s) := by
  refine ⟨hb1, ?_⟩
  intro ck cid hcmem hckind ctx' hctx' hctxne' tk tid htmem htkind hup
  have htid_ne : tid ≠ st.len := by
    intro he
    rw [he, insertState_arena_self] at htkind
    have h2 : s.kind = .Table := htkind
    exact hnt h2
  have hcid_ne : cid ≠ st.len := by
    intro he
    rw [he, insertState_arena_self] at hckind hctx'
    have hks : s.kind = .Column := hckind
    have hcc : s.tableContext = some ctx' := hctx'
    refine hnc ⟨hks, ?_⟩
    rw [hcc]
    simpa [truthyCtx] using hctxne'
  exact insert_main_old hb hmain hcmem hcid_ne hckind hctx' hctxne' htmem htid_ne htkind hup

/-- `addSymbol` on a column whose table is not yet registered preserves the
invariant. -/
theorem colNoTable_inv {st : SymState} {s : SymInput} (hb : SymInvBase st)
    (hmain : symTableInvariant st) (hb1 : SymInvBase (insertState st s))
    (hk : s.kind = .Column) {ctx : List Char} (hctx : s.tableContext = some ctx)
    (hctxne : ctx ≠ [])
    (hget : assocGet (getKey ctx .Table none) (insertState st s).keys = none) :
    SymInv (insertState st s) := by
  refine ⟨hb1, ?_⟩
  intro ck cid hcmem hckind ctx' hctx' hctxne' tk tid htmem htkind hup
  have htid_ne : tid ≠ st.len := by
    intro he
    rw [he, insertState_arena_self] at htkind
    have h2 : s.kind = .Table := htkind
    rw [hk] at h2
    exact absurd h2 (by decide)
  rcases insertState_keys_split hb (tk, tid) htmem with heq | ⟨htmem0, _⟩
  · exact absurd (congrArg Prod.snd heq) htid_ne
  have htk0 : (st.arena tid).kind = .Table := by
    rw [← insertState_arena_ne st s htid_ne]
    exact htkind
  have hup0 : upper ctx' = upper ((st.arena tid).name) := by
    rw [← insertState_arena_ne st s htid_ne]
    exact hup
  by_cases hcid : cid = st.len
  · exfalso
    subst hcid
    rw [insertState_arena_self] at hctx'
    have hcc : s.tableContext = some ctx' := hctx'
    rw [hctx] at hcc
    have hcc2 : ctx = ctx' := Option.some.inj hcc
    have htk : tk = getKey ctx' .Table none := table_key_eq hb htmem0 htk0 hup0
    have htk2 : tk = getKey ctx .Table none := by rw [htk, hcc2]
    exact (assocGet_none hget) tid (htk2 ▸ htmem)
  · exact insert_main_old hb hmain hcmem hcid hckind hctx' hctxne' htmem htid_ne htkind hup

/-- `addSymbol` on a column whose table is already registered links the new
column and preserves the invariant. -/
theorem colLink_inv {st : SymState} {s : SymInput} (hb : SymInvBase st)
    (hmain : symTableInvariant st) (hb1 : SymInvBase (insertState st s))
    (hk : s.kind = .Column) {ctx : List Char} (hctx : s.tableContext = some ctx)
    (hctxne : ctx ≠ []) {tableId : Nat}
    (hget : assocGet (getKey ctx .Table none) (insertState st s).keys = some tableId) :
    SymInv (linkParentChild tableId st.len (insertState st s)) := by
  have hTmem : (getKey ctx .Table none, tableId) ∈ (insertState st s).keys :=
    assocGet_mem hget
  have hTold : (getKey ctx .Table none, tableId) ∈ st.keys ∧ tableId < st.len := by
    rcases insertState_keys_split hb _ hTmem with heq | h1
    · exfalso
      have hfst : getKey ctx .Table none = getKey s.name s.kind s.tableContext :=
        congrArg Prod.fst heq
      have h2 := getKey_eq_table hfst.symm
      rw [hk] at h2
      exact absurd h2.1 (by decide)
    · exact h1
  have hne : tableId ≠ st.len := Nat.ne_of_lt hTold.2
  rcases linkParentChild_spec tableId st.len (insertState st s) hne with
    ⟨hlen, hkeys, hfields, hchildP, hchildO, hparC, hparO⟩
  have harena_t : (insertState st s).arena tableId = st.arena tableId :=
    insertState_arena_ne st s hne
  have hnotmem : st.len ∉ (st.arena tableId).children := fun hm =>
    absurd (hb.childLt tableId st.len hm) (lt_irrefl st.len)
  have hcontains : ((insertState st s).arena tableId).children.contains st.len = false := by
    rw [harena_t]
    cases hc : (st.arena tableId).children.contains st.len
    · rfl
    · exact absurd (List.mem_of_elem_eq_true hc) hnotmem
  have hcond : ¬(((insertState st s).arena tableId).children.contains st.len = true) := by
    rw [hcontains]
    exact Bool.false_ne_true
  rw [if_neg hcond] at hchildP
  rw [harena_t] at hchildP
  refine ⟨⟨?_, ?_, ?_, ?_, ?_, ?_⟩, ?_⟩
  · intro p hp
    rw [hkeys] at hp
    rw [hlen]
    exact hb1.idsLt p hp
  · intro p hp
    rw [hkeys] at hp
    exact (hb1.keyCons p hp).trans (keyOfRec_fieldsEq (hfields p.2)).symm
  · rw [hkeys]
    exact hb1.fstNodup
  · rw [hkeys]
    exact hb1.sndNodup
  · intro i c hc
    rw [hlen]
    by_cases hip : i = tableId
    · subst hip
      rw [hchildP] at hc
      rcases List.mem_append.mp hc with hc1 | hc1
      · exact Nat.lt_succ_of_lt (hb.childLt _ c hc1)
      · rw [List.mem_singleton.mp hc1]
        exact Nat.lt_succ_self _
    · rw [hchildO i hip] at hc
      exact hb1.childLt i c hc
  · intro i
    by_cases hip : i = tableId
    · subst hip
      rw [hchildP]
      exact List.Nodup.append (hb.childNodup _) (List.nodup_singleton _)
        (fun a ha hb2 => hnotmem (List.mem_singleton.mp hb2 ▸ ha))
    · rw [hchildO i hip]
      exact hb1.childNodup i
  · intro ck cid hcmem hckind ctx' hctx' hctxne' tk tid htmem htkind hup
    rw [hkeys] at hcmem htmem
    have hck1 : ((insertState st s).arena cid).kind = .Column :=
      ((hfields cid).2.1).symm.trans hckind
    have hctx1 : ((insertState st s).arena cid).tableContext = some ctx' :=
      ((hfields cid).2.2).symm.trans hctx'
    have htk1 : ((insertState st s).arena tid).kind = .Table :=
      ((hfields tid).2.1).symm.trans htkind
    have hup1 : upper ctx' = upper (((insertState st s).arena tid).name) := by
      rw [hup, (hfields tid).1]
    have htid_ne : tid ≠ st.len := by
      intro he
      rw [he, insertState_arena_self] at htk1
      have h2 : s.kind = .Table := htk1
      rw [hk] at h2
      exact absurd h2 (by decide)
    by_cases hcid : cid = st.len
    · subst hcid
      rw [insertState_arena_self] at hctx1
      have hcc : s.tableContext = some ctx' := hctx1
      rw [hctx] at hcc
      have hcc2 : ctx = ctx' := Option.some.inj hcc
      rcases insertState_keys_split hb (tk, tid) htmem with heq | ⟨htmem0, _⟩
      · exact absurd (congrArg Prod.snd heq) htid_ne
      have htk0 : (st.arena tid).kind = .Table := by
        rw [← insertState_arena_ne st s htid_ne]
        exact htk1
      have hup0 : upper ctx' = upper ((st.arena tid).name) := by
        rw [← insertState_arena_ne st s htid_ne]
        exact hup1
      have htk : tk = getKey ctx' .Table none := table_key_eq hb htmem0 htk0 hup0
      have hmem1 : (getKey ctx .Table none, tid) ∈ (insertState st s).keys := by
        rw [hcc2, ← htk]
        exact htmem
      have htid_eq : tid = tableId := assoc_fst_nodup_inj hb1.fstNodup hmem1 hTmem
      refine ⟨?_, ?_⟩
      · rw [htid_eq]
        exact hparC
      · rw [htid_eq, hchildP, List.count_append,
          List.count_eq_zero_of_not_mem hnotmem]
        simp
    · rcases insertState_keys_split hb (ck, cid) hcmem with heq | ⟨hcmem0, _⟩
      · exact absurd (congrArg Prod.snd heq) hcid
      rcases insertState_keys_split hb (tk, tid) htmem with heq | ⟨htmem0, _⟩
      · exact absurd (congrArg Prod.snd heq) htid_ne
      have hck0 : (st.arena cid).kind = .Column := by
        rw [← insertState_arena_ne st s hcid]
        exact hck1
      have hctx0 : (st.arena cid).tableContext = some ctx' := by
        rw [← insertState_arena_ne st s hcid]
        exact hctx1
      have htk0 : (st.arena tid).kind = .Table := by
        rw [← insertState_arena_ne st s htid_ne]
        exact htk1
      have hup0 : upper ctx' = upper ((st.arena tid).name) := by
        rw [← insertState_arena_ne st s htid_ne]
        exact hup1
      have hres := hmain ck cid hcmem0 hck0 ctx' hctx0 hctxne' tk tid htmem0 htk0 hup0
      refine ⟨?_, ?_⟩
      · rw [hparO cid hcid, insertState_arena_ne st s hcid]
        exact hres.1
      · by_cases htp : tid = tableId
        · rw [htp] at hres ⊢
          rw [hchildP, List.count_append, hres.2]
          have h0 : ([st.len] : List Nat).count cid = 0 :=
            List.count_eq_zero_of_not_mem (by simp [hcid])
          rw [h0]
        · rw [hchildO tid htp, insertState_arena_ne st s htid_ne]
          exact hres.2

/-- `addSymbol` on a table links every matching registered column and
preserves the invariant. -/
theorem tableAdd_inv {st : SymState} {s : SymInput} (hb : SymInvBase st)
    (hmain : symTableInvariant st) (hb1 : SymInvBase (insertState st s))
    (hT : s.kind = .Table) :
    SymInv (linkColumnsLoop st.len s.name (insertState st s).keys (insertState st s)) := by
  have hkind1 : ((insertState st s).arena st.len).kind = .Table := by
    rw [insertState_arena_self]
    exact hT
  have hchild_nil : ((insertState st s).arena st.len).children = [] := by
    rw [insertState_arena_self]
    rfl
  have hnotin : ∀ q ∈ (insertState st s).keys,
      q.2 ∉ ((insertState st s).arena st.len).children := by
    intro q hq
    rw [hchild_nil]
    exact List.not_mem_nil _
  rcases linkColumnsLoop_spec st.len s.name (insertState st s).keys (insertState st s)
      hkind1 hb1.sndNodup hnotin with
    ⟨hlen, hkeys, hfields, hchildO, hchildT, hpar, hparO⟩
  rw [hchild_nil, List.nil_append] at hchildT
  have hfilter_nodup :
      (((insertState st s).keys.filter
        (fun q => colMatches (insertState st s) s.name q.2)).map Prod.snd).Nodup :=
    List.Nodup.sublist (List.Sublist.map Prod.snd (List.filter_sublist _)) hb1.sndNodup
  refine ⟨⟨?_, ?_, ?_, ?_, ?_, ?_⟩, ?_⟩
  · intro p hp
    rw [hkeys] at hp
    rw [hlen]
    exact hb1.idsLt p hp
  · intro p hp
    rw [hkeys] at hp
    exact (hb1.keyCons p hp).trans (keyOfRec_fieldsEq (hfields p.2)).symm
  · rw [hkeys]
    exact hb1.fstNodup
  · rw [hkeys]
    exact hb1.sndNodup
  · intro i c hc
    rw [hlen]
    by_cases hip : i = st.len
    · subst hip
      rw [hchildT] at hc
      rcases List.mem_map.mp hc with ⟨q, hq, hqc⟩
      have hq2 : q ∈ (insertState st s).keys := List.mem_of_mem_filter hq
      exact hqc ▸ hb1.idsLt q hq2
    · rw [hchildO i hip] at hc
      exact hb1.childLt i c hc
  · intro i
    by_cases hip : i = st.len
    · subst hip
      rw [hchildT]
      exact hfilter_nodup
    · rw [hchildO i hip]
      exact hb1.childNodup i
  · intro ck cid hcmem hckind ctx' hctx' hctxne' tk tid htmem htkind hup
    rw [hkeys] at hcmem htmem
    have hck1 : ((insertState st s).arena cid).kind = .Column :=
      ((hfields cid).2.1).symm.trans hckind
    have hctx1 : ((insertState st s).arena cid).tableContext = some ctx' :=
      ((hfields cid).2.2).symm.trans hctx'
    have htk1 : ((insertState st s).arena tid).kind = .Table :=
      ((hfields tid).2.1).symm.trans htkind
    have hup1 : upper ctx' = upper (((insertState st s).arena tid).name) := by
      rw [hup, (hfields tid).1]
    have hcid_ne : cid ≠ st.len := by
      intro he
      rw [he, insertState_arena_self] at hck1
      have h2 : s.kind = .Column := hck1
      rw [hT] at h2
      exact absurd h2 (by decide)
    rcases insertState_keys_split hb (ck, cid) hcmem with heq | ⟨hcmem0, _⟩
    · exact absurd (congrArg Prod.snd heq) hcid_ne
    have hck0 : (st.arena cid).kind = .Column := by
      rw [← insertState_arena_ne st s hcid_ne]
      exact hck1
    have hctx0 : (st.arena cid).tableContext = some ctx' := by
      rw [← insertState_arena_ne st s hcid_ne]
      exact hctx1
    by_cases htid : tid = st.len
    · subst htid
      have hname1 : ((insertState st s).arena st.len).name = s.name := by
        rw [insertState_arena_self]
        rfl
      have hups : upper ctx' = upper s.name := by
        rw [hup1, hname1]
      have hm : colMatches (insertState st s) s.name cid = true := by
        unfold colMatches
        rw [hck1, hctx1]
        simp [hups]
      refine ⟨hpar (ck, cid) hcmem hm, ?_⟩
      rw [hchildT]
      exact List.count_eq_one_of_mem hfilter_nodup
        (List.mem_map.mpr ⟨(ck, cid), List.mem_filter.mpr ⟨hcmem, hm⟩, rfl⟩)
    · rcases insertState_keys_split hb (tk, tid) htmem with heq | ⟨htmem0, _⟩
      · exact absurd (congrArg Prod.snd heq) htid
      have htk0 : (st.arena tid).kind = .Table := by
        rw [← insertState_arena_ne st s htid]
        exact htk1
      have hup0 : upper ctx' = upper ((st.arena tid).name) := by
        rw [← insertState_arena_ne st s htid]
        exact hup1
      have hupne : upper ((st.arena tid).name) ≠ upper s.name := by
        intro hu
        have htk : tk = getKey ctx' .Table none := table_key_eq hb htmem0 htk0 hup0
        have hknew : getKey s.name s.kind s.tableContext = getKey ctx' .Table none := by
          rw [hT, getKey_table_any]
          exact getKey_table_congr (hu.symm.trans hup0.symm)
        have hnewmem : (getKey s.name s.kind s.tableContext, st.len)
            ∈ (insertState st s).keys := by
          have hkl : (insertState st s).keys
              = assocSet (getKey s.name s.kind s.tableContext) st.len st.keys := rfl
          rw [hkl]
          exact assocSet_self_mem _ _ _
        have hmemA : (getKey ctx' .Table none, tid) ∈ (insertState st s).keys := by
          rw [← htk]
          exact htmem
        have hmemB : (getKey ctx' .Table none, st.len) ∈ (insertState st s).keys := by
          rw [← hknew]
          exact hnewmem
        exact htid (assoc_fst_nodup_inj hb1.fstNodup hmemA hmemB)
      have hnom : ∀ q ∈ (insertState st s).keys,
          colMatches (insertState st s) s.name q.2 = true → q.2 ≠ cid := by
        intro q hq hmq hqc
        rw [hqc] at hmq
        unfold colMatches at hmq
        simp only [Bool.and_eq_true, decide_eq_true_eq] at hmq
        rcases hmq with ⟨_, hmq2⟩
        rw [hctx1] at hmq2
        simp only [Option.map_some', Option.some.injEq] at hmq2
        exact hupne (hup0.symm.trans hmq2)
      have hres := hmain ck cid hcmem0 hck0 ctx' hctx0 hctxne' tk tid htmem0 htk0 hup0
      refine ⟨?_, ?_⟩
      · rw [hparO cid hnom, insertState_arena_ne st s hcid_ne]
        exact hres.1
      · rw [hchildO tid htid, insertState_arena_ne st s htid]
        exact hres.2

theorem addSymbol_inv {st : SymState} (s : SymInput) (h : SymInv st) :
    SymInv (addSymbol st s) := by
  rcases h with ⟨hb, hmain⟩
  have hb1 : SymInvBase (insertState st s) := insertState_base s hb
  rw [addSymbol_eq]
  by_cases hcol : (s.kind = .Column && truthyCtx s.tableContext) = true
  · rw [if_pos hcol]
    simp only [Bool.and_eq_true, decide_eq_true_eq] at hcol
    split
    · rename_i ctx hctx
      have hctxne : ctx ≠ [] := by
        have h2 := hcol.2
        rw [hctx] at h2
        simpa [truthyCtx] using h2
      split
      · rename_i tableId hget
        exact colLink_inv hb hmain hb1 hcol.1 hctx hctxne hget
      · rename_i hget
        exact colNoTable_inv hb hmain hb1 hcol.1 hctx hctxne hget
    · rename_i hctx
      have h2 := hcol.2
      rw [hctx] at h2
      simp [truthyCtx] at h2
  · rw [if_neg hcol]
    simp only [Bool.and_eq_true, decide_eq_true_eq] at hcol
    by_cases hT : s.kind = .Table
    · rw [if_pos hT]
      exact tableAdd_inv hb hmain hb1 hT
    · rw [if_neg hT]
      exact plainAdd_inv hb hmain hb1 hcol hT

theorem foldl_addSymbol_inv (calls : List SymInput) :
    ∀ st, SymInv st → SymInv (calls.foldl addSymbol st) := by
  induction calls with
  | nil =>
    intro st h
    exact h
  | cons c rest ih =>
    intro st h
    exact ih _ (addSymbol_inv c h)

theorem runSymbolTable_inv (calls : List SymInput) : SymInv (runSymbolTable calls) :=
  foldl_addSymbol_inv calls emptySymState emptySymState_inv

/-- C10 (amended): after any sequence of `addSymbol` calls, every registered
column whose non-empty `tableContext` case-insensitively names a registered
table has its `parent` set to that table and appears exactly once in that
table's `children` list. -/
theorem C10_amended (calls : List SymInput) (ck : List Char) (cid : Nat)
    (tk : List Char) (tid : Nat) (ctx : List Char)
    (hc : (ck, cid) ∈ (runSymbolTable calls).keys)
    (hck : ((runSymbolTable calls).arena cid).kind = .Column)
    (hctx : ((runSymbolTable calls).arena cid).tableContext = some ctx)
    (hne : ctx ≠ [])
    (ht : (tk, tid) ∈ (runSymbolTable calls).keys)
    (htk : ((runSymbolTable calls).arena tid).kind = .Table)
    (hu : upper ctx = upper (((runSymbolTable calls).arena tid).name)) :
    ((runSymbolTable calls).arena cid).parent = some tid ∧
      ((runSymbolTable calls).arena tid).children.count cid = 1 :=
  (runSymbolTable_inv calls).main ck cid hc hck ctx hctx hne tk tid ht htk hu

theorem C10_amended_witness :
    ((runSymbolTable [⟨['T'], .Table, none⟩, ⟨['c'], .Column, some ['t']⟩]).arena 1).parent
        = some 0 ∧
      ((runSymbolTable [⟨['T'], .Table, none⟩,
          ⟨['c'], .Column, some ['t']⟩]).arena 0).children.count 1 = 1 :=
  C10_amended [⟨['T'], .Table, none⟩, ⟨['c'], .Column, some ['t']⟩]
    ('c':: 'o':: 'l':: 'u':: 'm':: 'n':: ':':: 'T':: ':'::['C']) 1
    ('t':: 'a':: 'b':: 'l':: 'e':: ':'::['T']) 0 ['t']
    (by decide) (by decide) (by decide) (by decide) (by decide) (by decide) (by decide)

/-! ## Claim C6: emitted symbol ranges avoid exclusion ranges -/

/-- A range contained in some span that tested negative against the
exclusion list. -/
def rangeCovered (excl : List ExclusionRange) (r : Range) : Prop :=
  ∃ i L, isInExclusionRange i L excl = false ∧ i ≤ r.start ∧ r.stop ≤ i + L

theorem rangeCovered_outside {excl : List ExclusionRange} {r : Range}
    (h : rangeCovered excl r) : ∀ e ∈ excl, rangeOutside r e := by
  rcases h with ⟨i, L, hfalse, h1, h2⟩
  intro e he
  unfold rangeOutside
  rintro ⟨ha, hb⟩
  unfold isInExclusionRange at hfalse
  have hcontra := List.any_eq_false.mp hfalse e he
  have hx : i < e.stop := lt_of_le_of_lt h1 ha
  have hy : e.start < i + L := lt_of_lt_of_le hb h2
  simp [hx, hy] at hcontra

theorem trim_length_le (s : List Char) : (trim s).length ≤ s.length := by
  unfold trim
  rw [List.length_reverse]
  have h1 : (((s.dropWhile isWs).reverse).dropWhile isWs).length
      ≤ ((s.dropWhile isWs).reverse).length :=
    List.Sublist.length_le (List.dropWhile_sublist _)
  have h2 : ((s.dropWhile isWs).reverse).length = (s.dropWhile isWs).length :=
    List.length_reverse _
  have h3 : (s.dropWhile isWs).length ≤ s.length :=
    List.Sublist.length_le (List.dropWhile_sublist _)
  omega

theorem slice_length_le (text : List Char) (i L : Nat) : (slice text i L).length ≤ L := by
  unfold slice
  rw [List.length_take]
  exact min_le_left _ _

theorem charAt_lt {text : List Char} {p : Nat} {c : Char} (h : charAt text p = some c) :
    p < text.length := by
  unfold charAt at h
  rcases List.getElem?_eq_some.mp h with ⟨h1, _⟩
  exact h1

theorem slice_ne_nil {text : List Char} {p L : Nat} {c : Char}
    (h : charAt text p = some c) (hL : 1 ≤ L) : slice text p L ≠ [] := by
  have hp := charAt_lt h
  unfold slice
  intro hnil
  have h0 : ((text.drop p).take L).length = 0 := by rw [hnil]; rfl
  rw [List.length_take, List.length_drop] at h0
  omega

theorem charAt_slice {text : List Char} {a L p : Nat} {c : Char}
    (h : charAt text p = some c) (ha : a ≤ p) (hp : p < a + L) :
    charAt (slice text a L) (p - a) = some c := by
  unfold charAt at h ⊢
  unfold slice
  rw [List.getElem?_take, if_pos (by omega : p - a < L), List.getElem?_drop,
    Nat.add_sub_cancel' ha]
  exact h

theorem litMatchAt_single {s : List Char} {j : Nat} {c : Char}
    (h : charAt s j = some c) : litMatchAt s [c] j = true := by
  unfold charAt at h
  rcases List.getElem?_eq_some.mp h with ⟨h1, h2⟩
  unfold litMatchAt slice
  rw [List.drop_eq_getElem_cons h1]
  simp [h2]

theorem findLitGo_some {text pat : List Char} {fuel i j : Nat}
    (h : findLitGo text pat fuel i = some j) : litMatchAt text pat j = true := by
  induction fuel generalizing i with
  | zero => cases h
  | succ fuel ih =>
    unfold findLitGo at h
    by_cases h1 : text.length < i
    · rw [if_pos h1] at h
      cases h
    · rw [if_neg h1] at h
      by_cases h2 : litMatchAt text pat i = true
      · rw [if_pos h2] at h
        have h3 := Option.some.inj h
        subst h3
        exact h2
      · rw [if_neg h2] at h
        exact ih h

theorem findLitGo_min {text pat : List Char} {k : Nat}
    (hk : litMatchAt text pat k = true) (hkLen : k ≤ text.length) :
    ∀ fuel i, i ≤ k → k < i + fuel →
      ∃ j, findLitGo text pat fuel i = some j ∧ j ≤ k := by
  intro fuel
  induction fuel with
  | zero =>
    intro i h1 h2
    omega
  | succ fuel ih =>
    intro i h1 h2
    unfold findLitGo
    rw [if_neg (by omega : ¬text.length < i)]
    by_cases h3 : litMatchAt text pat i = true
    · rw [if_pos h3]
      exact ⟨i, rfl, h1⟩
    · rw [if_neg h3]
      have hik : i ≠ k := fun he => h3 (he ▸ hk)
      exact ih (i + 1) (by omega) (by omega)

theorem strIndexOf_some_bound {s pat : List Char} {j : Nat} (hp : pat ≠ [])
    (h : strIndexOf s pat = some j) : j + pat.length ≤ s.length :=
  litMatchAt_bound hp (findLitGo_some h)

theorem strIndexOf_le_of_match {s pat : List Char} {k : Nat}
    (hk : litMatchAt s pat k = true) (hkLen : k ≤ s.length) :
    ∃ j, strIndexOf s pat = some j ∧ j ≤ k := by
  unfold strIndexOf findLitFrom
  exact findLitGo_min hk hkLen (s.length + 1 - 0) 0 (Nat.zero_le k) (by omega)

theorem bracketTokenMatch_spec {text : List Char} {i len : Nat} {val : List Char}
    (h : bracketTokenMatch text i = some (len, val)) :
    charAt text i = some '[' ∧ 2 ≤ len ∧ val.length + 2 ≤ len := by
  unfold bracketTokenMatch at h
  by_cases h1 : charAt text i = some '['
  · rw [if_pos h1] at h
    rcases hf : findCharFrom text ']' (i + 1) with _ | k
    · rw [hf] at h
      cases h
    · rw [hf] at h
      dsimp only at h
      by_cases h2 : i + 1 < k
      · rw [if_pos h2] at h
        have h4 := Option.some.inj h
        have hlen : k + 1 - i = len := congrArg Prod.fst h4
        have hval : slice text (i + 1) (k - (i + 1)) = val := congrArg Prod.snd h4
        have hsl := slice_length_le text (i + 1) (k - (i + 1))
        rw [hval] at hsl
        exact ⟨h1, by omega, by omega⟩
      · rw [if_neg h2] at h
        cases h
  · rw [if_neg h1] at h
    cases h

theorem measureDef1Match_spec {text : List Char} {i len : Nat} {val : List Char}
    (h : measureDef1Match text i = some (len, val)) :
    charAt text i = some '[' ∧ 2 ≤ len ∧ (trim val).length + 2 ≤ len := by
  unfold measureDef1Match at h
  rcases hb : bracketTokenMatch text i with _ | ⟨blen, content⟩
  · rw [hb] at h
    cases h
  · rw [hb] at h
    dsimp only at h
    by_cases h2 : litMatchAt text [':', '='] (i + blen + countWhile isWs text (i + blen)) = true
    · rw [if_pos h2] at h
      have h4 := Option.some.inj h
      have hlen : blen + countWhile isWs text (i + blen) + 2 = len := congrArg Prod.fst h4
      have hval : content = val := congrArg Prod.snd h4
      rcases bracketTokenMatch_spec hb with ⟨hch, hb2, hbl⟩
      have htr : (trim content).length ≤ content.length := trim_length_le content
      refine ⟨hch, by omega, ?_⟩
      rw [← hval]
      omega
    · rw [if_neg h2] at h
      cases h
  
theorem measureDef2Match_spec {text : List Char} {i len : Nat} {val : List Char}
    (h : measureDef2Match text i = some (len, val)) :
    ∃ b, i ≤ b ∧ charAt text b = some '[' ∧ (b - i) + 1 + (trim val).length ≤ len := by
  unfold measureDef2Match at h
  split at h
  · dsimp only at h
    split at h
    · cases h
    · split at h
      · cases h
      · rename_i b hbp
        split at h
        · rename_i blen content hbm
          split at h
          · have h4 := Option.some.inj h
            have hlen : b + blen + countWhile isWs text (b + blen) + 1 - i = len :=
              congrArg Prod.fst h4
            have hval : content = val := congrArg Prod.snd h4
            rcases bracketTokenMatch_spec hbm with ⟨hch, hb2, hbl⟩
            have htr : (trim content).length ≤ content.length := trim_length_le content
            split at hbp
            · split at hbp
              · split at hbp
                · rename_i j hfq hcond
                  have hb_eq : j + 1 = b := Option.some.inj hbp
                  simp only [Bool.and_eq_true, decide_eq_true_eq] at hcond
                  refine ⟨b, by omega, hch, ?_⟩
                  rw [← hval]
                  omega
                · cases hbp
              · cases hbp
            · split at hbp
              · split at hbp
                · have hb_eq := Option.some.inj hbp
                  refine ⟨b, by omega, hch, ?_⟩
                  rw [← hval]
                  omega
                · cases hbp
              · cases hbp
          · cases h
        · cases h
  · cases h

theorem testAt_some {p : Char → Bool} {text : List Char} {i : Nat}
    (h : testAt p text i = true) : ∃ c, charAt text i = some c ∧ p c = true := by
  unfold testAt at h
  rcases hc : charAt text i with _ | c
  · rw [hc] at h
    cases h
  · rw [hc] at h
    exact ⟨c, rfl, h⟩

theorem varDeclMatch_spec {text : List Char} {i len : Nat} {val : List Char}
    (h : varDeclMatch text i = some (len, val)) :
    val ≠ [] ∧ val.length ≤ len := by
  unfold varDeclMatch at h
  split at h
  · dsimp only at h
    split at h
    · cases h
    · split at h
      · rename_i hid
        split at h
        · have h4 := Option.some.inj h
          have hlen : 3 + countWhile isWs text (i + 3) +
              (1 + countWhile isIdChar text (i + 3 + countWhile isWs text (i + 3) + 1)) +
              countWhile isWs text (i + 3 + countWhile isWs text (i + 3) +
                (1 + countWhile isIdChar text (i + 3 + countWhile isWs text (i + 3) + 1))) + 1
              = len := congrArg Prod.fst h4
          have hval : slice text (i + 3 + countWhile isWs text (i + 3))
              (1 + countWhile isIdChar text (i + 3 + countWhile isWs text (i + 3) + 1))
              = val := congrArg Prod.snd h4
          have hsl := slice_length_le text (i + 3 + countWhile isWs text (i + 3))
            (1 + countWhile isIdChar text (i + 3 + countWhile isWs text (i + 3) + 1))
          rw [hval] at hsl
          rcases testAt_some hid with ⟨c, hc, _⟩
          refine ⟨?_, by omega⟩
          rw [← hval]
          exact slice_ne_nil hc (by omega)
        · cases h
      · cases h
  · cases h

theorem identMatch_spec {text : List Char} {i len : Nat} {val : List Char}
    (h : identMatch text i = some (len, val)) : val.length ≤ len := by
  unfold identMatch at h
  split at h
  · dsimp only at h
    have h4 := Option.some.inj h
    have hlen : 1 + countWhile isIdChar text (i + 1) = len := congrArg Prod.fst h4
    have hval : slice text i (1 + countWhile isIdChar text (i + 1)) = val :=
      congrArg Prod.snd h4
    have hsl := slice_length_le text i (1 + countWhile isIdChar text (i + 1))
    rw [hval] at hsl
    omega
  · cases h

theorem tableColMatch_spec {text : List Char} {i len : Nat} {pl : TableColPayload}
    (h : tableColMatch text i = some (len, pl)) :
    (if pl.quoted then 1 else 0) + pl.rawName.length ≤ len ∧
      (trim pl.content).length ≤ len := by
  unfold tableColMatch at h
  split at h
  · -- quoted table name
    dsimp only at h
    split at h
    · cases h
    · rename_i quoted rawName b heq
      split at h
      · split at h
        · rename_i blen content hbm
          have h4 := Option.some.inj h
          have hlen : b + blen - i = len := congrArg Prod.fst h4
          have hpl : (⟨quoted, rawName, content⟩ : TableColPayload) = pl :=
            congrArg Prod.snd h4
          have hqe : pl.quoted = quoted := by rw [← hpl]
          have hre : pl.rawName = rawName := by rw [← hpl]
          have hce : pl.content = content := by rw [← hpl]
          rcases bracketTokenMatch_spec hbm with ⟨hch, hb2, hbl⟩
          have htr : (trim content).length ≤ content.length := trim_length_le content
          rw [hqe, hre, hce]
          split at heq
          · split at heq
            · rename_i j hfq hcond
              have h5 := Option.some.inj heq
              have hq5 : true = quoted := congrArg (fun t : Bool × List Char × Nat => t.1) h5
              have hr5 : slice text (i + 1) (j - (i + 1)) = rawName :=
                congrArg (fun t : Bool × List Char × Nat => t.2.1) h5
              have hb5 : j + 1 = b := congrArg (fun t : Bool × List Char × Nat => t.2.2) h5
              have hsl := slice_length_le text (i + 1) (j - (i + 1))
              rw [hr5] at hsl
              rw [← hq5]
              simp only [if_true]
              simp only [decide_eq_true_eq] at hcond
              constructor <;> omega
            · cases heq
          · cases heq
        · cases h
      · cases h
  · -- bare table name
    dsimp only at h
    split at h
    · cases h
    · rename_i quoted rawName b heq
      split at h
      · split at h
        · rename_i blen content hbm
          have h4 := Option.some.inj h
          have hlen : b + blen - i = len := congrArg Prod.fst h4
          have hpl : (⟨quoted, rawName, content⟩ : TableColPayload) = pl :=
            congrArg Prod.snd h4
          have hqe : pl.quoted = quoted := by rw [← hpl]
          have hre : pl.rawName = rawName := by rw [← hpl]
          have hce : pl.content = content := by rw [← hpl]
          rcases bracketTokenMatch_spec hbm with ⟨hch, hb2, hbl⟩
          have htr : (trim content).length ≤ content.length := trim_length_le content
          rw [hqe, hre, hce]
          split at heq
          · have h5 := Option.some.inj heq
            have hq5 : false = quoted := congrArg (fun t : Bool × List Char × Nat => t.1) h5
            have hr5 : slice text i (1 + countWhile isIdChar text (i + 1)) = rawName :=
              congrArg (fun t : Bool × List Char × Nat => t.2.1) h5
            have hb5 : i + (1 + countWhile isIdChar text (i + 1)) = b :=
              congrArg (fun t : Bool × List Char × Nat => t.2.2) h5
            have hsl := slice_length_le text i (1 + countWhile isIdChar text (i + 1))
            rw [hr5] at hsl
            rw [← hq5]
            simp only [Bool.false_eq_true, if_false]
            constructor <;> omega
          · cases heq
        · cases h
      · cases h


def measureCovered (excl : List ExclusionRange) (info : MeasureInfo) : Prop :=
  ∀ r ∈ measureRanges info, rangeCovered excl r

theorem assocUpdate_forall {κ β : Type} [DecidableEq κ] {k : κ} {f : β → β}
    {Q : β → Prop} {l : List (κ × β)}
    (hl : ∀ q ∈ l, Q q.2) (hf : ∀ v, Q v → Q (f v)) :
    ∀ q ∈ assocUpdate k f l, Q q.2 := by
  induction l with
  | nil =>
    intro q hq
    cases hq
  | cons p rest ih =>
    intro q hq
    unfold assocUpdate at hq
    rcases p with ⟨k2, v2⟩
    by_cases hk : k2 = k
    · rw [if_pos hk] at hq
      rcases List.mem_cons.mp hq with rfl | hq2
      · exact hf v2 (hl (k2, v2) (List.mem_cons_self _ _))
      · exact hl q (List.mem_cons_of_mem _ hq2)
    · rw [if_neg hk] at hq
      rcases List.mem_cons.mp hq with rfl | hq2
      · exact hl _ (List.mem_cons_self _ _)
      · exact ih (fun q2 hq3 => hl q2 (List.mem_cons_of_mem _ hq3)) q hq2

theorem def1_bound {text : List Char} {m : RawMatch (List Char)}
    (h : measureDef1Match text m.idx = some (m.len, m.val)) :
    (strIndexOf (slice text m.idx m.len) ['[']).getD 0 + 1 + (trim m.val).length
      ≤ m.len := by
  rcases measureDef1Match_spec h with ⟨hch, h2, htr⟩
  have hocc : litMatchAt (slice text m.idx m.len) ['['] 0 = true := by
    have h3 : charAt (slice text m.idx m.len) (m.idx - m.idx) = some '[' :=
      charAt_slice hch (le_refl m.idx) (by omega)
    rw [Nat.sub_self] at h3
    exact litMatchAt_single h3
  rcases strIndexOf_le_of_match hocc (Nat.zero_le _) with ⟨j, hj, hjle⟩
  rw [hj]
  have hj0 : j = 0 := Nat.le_zero.mp hjle
  subst hj0
  simp only [Option.getD_some]
  omega

theorem def2_bound {text : List Char} {m : RawMatch (List Char)}
    (h : measureDef2Match text m.idx = some (m.len, m.val)) :
    (strIndexOf (slice text m.idx m.len) ['[']).getD 0 + 1 + (trim m.val).length
      ≤ m.len := by
  rcases measureDef2Match_spec h with ⟨b, hib, hch, hbound⟩
  have hblt : b < m.idx + m.len := by omega
  have hocc : litMatchAt (slice text m.idx m.len) ['['] (b - m.idx) = true :=
    litMatchAt_single (charAt_slice hch hib hblt)
  have hkb := litMatchAt_bound (by simp) hocc
  have hkb2 : b - m.idx + 1 ≤ (slice text m.idx m.len).length := by simpa using hkb
  rcases strIndexOf_le_of_match hocc (by omega) with ⟨j, hj, hjle⟩
  rw [hj]
  simp only [Option.getD_some]
  omega

theorem refm_bound {text : List Char} {m : RawMatch (List Char)}
    (h : bracketTokenMatch text m.idx = some (m.len, m.val)) :
    1 + (trim m.val).length ≤ m.len := by
  rcases bracketTokenMatch_spec h with ⟨_, h2, hbl⟩
  have htr := trim_length_le m.val
  omega

theorem measureDefStep_covered {text : List Char} {excl : List ExclusionRange}
    {measures : List (String × MeasureInfo)} {m : RawMatch (List Char)}
    {peek : Option (RawMatch (List Char))}
    (hacc : ∀ q ∈ measures, measureCovered excl q.2)
    (hbound : (strIndexOf (slice text m.idx m.len) ['[']).getD 0 + 1 + (trim m.val).length
      ≤ m.len) :
    ∀ q ∈ measureDefStep text excl measures m peek, measureCovered excl q.2 := by
  unfold measureDefStep
  by_cases hex : isInExclusionRange m.idx m.len excl = true
  · rw [if_pos hex]
    exact hacc
  · rw [if_neg hex]
    dsimp only
    by_cases h1 : trim m.val = []
    · rw [if_pos h1]
      exact hacc
    · rw [if_neg h1]
      by_cases h2 : assocHas (String.mk (trim m.val)) measures = true
      · rw [if_pos h2]
        exact hacc
      · rw [if_neg h2]
        intro q hq
        rcases List.mem_append.mp hq with hq1 | hq1
        · exact hacc q hq1
        · rcases List.mem_singleton.mp hq1 with rfl
          unfold measureCovered
          intro r hr
          unfold measureRanges at hr
          dsimp only at hr
          rcases List.mem_append.mp hr with hr1 | hr1
          · rcases List.mem_singleton.mp hr1 with rfl
            exact ⟨m.idx, m.len, Bool.of_not_eq_true hex, by dsimp only; omega, by dsimp only; omega⟩
          · cases hr1

theorem measureDefsGo_covered {text : List Char} {excl : List ExclusionRange} :
    ∀ ms : List (RawMatch (List Char)),
      (∀ m ∈ ms, (strIndexOf (slice text m.idx m.len) ['[']).getD 0 + 1 +
        (trim m.val).length ≤ m.len) →
      ∀ measures, (∀ q ∈ measures, measureCovered excl q.2) →
      ∀ q ∈ measureDefsGo text excl ms measures, measureCovered excl q.2 := by
  intro ms
  induction ms with
  | nil =>
    intro _ measures hacc
    exact hacc
  | cons m rest ih =>
    intro hms measures hacc
    simp only [measureDefsGo]
    exact ih (fun m2 hm2 => hms m2 (List.mem_cons_of_mem _ hm2)) _
      (measureDefStep_covered hacc (hms m (List.mem_cons_self _ _)))

theorem measureRefStep_covered {text : List Char} {excl : List ExclusionRange}
    {measures : List (String × MeasureInfo)} {m : RawMatch (List Char)}
    (hacc : ∀ q ∈ measures, measureCovered excl q.2)
    (hbound : 1 + (trim m.val).length ≤ m.len) :
    ∀ q ∈ measureRefStep text excl measures m, measureCovered excl q.2 := by
  unfold measureRefStep
  by_cases hex : isInExclusionRange m.idx m.len excl = true
  · rw [if_pos hex]
    exact hacc
  · rw [if_neg hex]
    dsimp only
    by_cases h1 : trim m.val = []
    · rw [if_pos h1]
      exact hacc
    · rw [if_neg h1]
      by_cases h2 : isPrecededByTableName text m.idx = true
      · rw [if_pos h2]
        exact hacc
      · rw [if_neg h2]
        by_cases h3 : isFollowedByAssignment text (m.idx + m.len) = true
        · rw [if_pos h3]
          exact hacc
        · rw [if_neg h3]
          have hcov : rangeCovered excl ⟨m.idx + 1, m.idx + 1 + (trim m.val).length⟩ :=
            ⟨m.idx, m.len, Bool.of_not_eq_true hex, by dsimp only; omega,
              by dsimp only; omega⟩
          by_cases h4 : assocHas (String.mk (trim m.val)) measures = true
          · rw [if_pos h4]
            apply assocUpdate_forall hacc
            intro v hv
            unfold measureCovered
            intro r hr
            unfold measureRanges at hr
            dsimp only at hr
            rcases List.mem_append.mp hr with hr1 | hr1
            · exact hv r (by unfold measureRanges; exact List.mem_append.mpr (Or.inl hr1))
            · rcases List.mem_append.mp hr1 with hr2 | hr2
              · exact hv r (by unfold measureRanges; exact List.mem_append.mpr (Or.inr hr2))
              · rcases List.mem_singleton.mp hr2 with rfl
                exact hcov
          · rw [if_neg h4]
            intro q hq
            rcases List.mem_append.mp hq with hq1 | hq1
            · exact hacc q hq1
            · rcases List.mem_singleton.mp hq1 with rfl
              unfold measureCovered
              intro r hr
              unfold measureRanges at hr
              dsimp only at hr
              rcases List.mem_append.mp hr with hr1 | hr1
              · cases hr1
              · rcases List.mem_singleton.mp hr1 with rfl
                exact hcov

theorem parseMeasures_covered (text : List Char) (excl : List ExclusionRange) :
    ∀ q ∈ parseMeasures text excl, measureCovered excl q.2 := by
  unfold parseMeasures
  dsimp only
  have hdefs1 : ∀ q ∈ measureDefsGo text excl (scanAll measureDef1Match text) [],
      measureCovered excl q.2 :=
    measureDefsGo_covered _ (fun m hm => def1_bound (scanAll_sound _ text m hm)) []
      (fun q hq => absurd hq (List.not_mem_nil q))
  have hdefs2 : ∀ q ∈ measureDefsGo text excl (scanAll measureDef2Match text)
      (measureDefsGo text excl (scanAll measureDef1Match text) []),
      measureCovered excl q.2 :=
    measureDefsGo_covered _ (fun m hm => def2_bound (scanAll_sound _ text m hm)) _ hdefs1
  have hfold : ∀ ms : List (RawMatch (List Char)),
      (∀ m ∈ ms, bracketTokenMatch text m.idx = some (m.len, m.val)) →
      ∀ measures, (∀ q ∈ measures, measureCovered excl q.2) →
      ∀ q ∈ ms.foldl (measureRefStep text excl) measures, measureCovered excl q.2 := by
    intro ms
    induction ms with
    | nil =>
      intro _ measures hacc
      exact hacc
    | cons m rest ih =>
      intro hms measures hacc
      simp only [List.foldl_cons]
      exact ih (fun m2 hm2 => hms m2 (List.mem_cons_of_mem _ hm2)) _
        (measureRefStep_covered hacc (refm_bound (hms m (List.mem_cons_self _ _))))
  exact hfold (scanAll bracketTokenMatch text) (scanAll_sound _ text) _ hdefs2

def varCovered (excl : List ExclusionRange) (v : VariableInfo) : Prop :=
  rangeCovered excl v.declarationRange ∧ ∀ r ∈ v.usageRanges, rangeCovered excl r

theorem varDeclStep_covered {text : List Char} {excl : List ExclusionRange}
    {measures : List (String × MeasureInfo)}
    {acc : List VariableInfo × List (String × Nat)} {m : RawMatch (List Char)}
    (hacc : ∀ v ∈ acc.1, varCovered excl v)
    (hm : varDeclMatch text m.idx = some (m.len, m.val)) :
    ∀ v ∈ (varDeclStep text excl measures acc m).1, varCovered excl v := by
  unfold varDeclStep
  by_cases hex : isInExclusionRange m.idx m.len excl = true
  · rw [if_pos hex]
    exact hacc
  · rw [if_neg hex]
    dsimp only
    intro v hv
    rcases List.mem_append.mp hv with hv1 | hv1
    · exact hacc v hv1
    · rcases List.mem_singleton.mp hv1 with rfl
      rcases varDeclMatch_spec hm with ⟨hne, hlen⟩
      have hb : (strIndexOf (slice text m.idx m.len) m.val).getD 0 + m.val.length ≤ m.len := by
        rcases hio : strIndexOf (slice text m.idx m.len) m.val with _ | j
        · simp only [Option.getD_none]
          omega
        · simp only [Option.getD_some]
          have h2 := strIndexOf_some_bound hne hio
          have hsl := slice_length_le text m.idx m.len
          omega
      unfold varCovered
      constructor
      · exact ⟨m.idx, m.len, Bool.of_not_eq_true hex, by dsimp only; omega,
          by dsimp only; omega⟩
      · intro r hr
        dsimp only at hr
        cases hr

theorem varDecls_covered {text : List Char} {excl : List ExclusionRange}
    {measures : List (String × MeasureInfo)} :
    ∀ ms : List (RawMatch (List Char)),
      (∀ m ∈ ms, varDeclMatch text m.idx = some (m.len, m.val)) →
      ∀ acc : List VariableInfo × List (String × Nat),
        (∀ v ∈ acc.1, varCovered excl v) →
        ∀ v ∈ (ms.foldl (varDeclStep text excl measures) acc).1, varCovered excl v := by
  intro ms
  induction ms with
  | nil =>
    intro _ acc hacc
    exact hacc
  | cons m rest ih =>
    intro hms acc hacc
    simp only [List.foldl_cons]
    exact ih (fun m2 hm2 => hms m2 (List.mem_cons_of_mem _ hm2)) _
      (varDeclStep_covered hacc (hms m (List.mem_cons_self _ _)))

theorem varUsageStep_covered {text : List Char} {excl : List ExclusionRange}
    {declaredVars : List (String × Nat)} {vars : List VariableInfo}
    {m : RawMatch (List Char)}
    (hacc : ∀ v ∈ vars, varCovered excl v)
    (hbound : m.val.length ≤ m.len) :
    ∀ v ∈ varUsageStep text excl declaredVars vars m, varCovered excl v := by
  unfold varUsageStep
  dsimp only
  rcases hg : assocGet (String.mk (upper m.val)) declaredVars with _ | idx
  · dsimp only
    exact hacc
  · dsimp only
    rcases hv : vars.get? idx with _ | varInfo
    · dsimp only
      exact hacc
    · dsimp only
      by_cases hc1 : (isInExclusionRange m.idx m.len excl || isInsideBrackets text m.idx ||
          isPrecededByQuote text m.idx) = true
      · rw [if_pos hc1]
        exact hacc
      · rw [if_neg hc1]
        have hset : ∀ v ∈ vars.set idx
            { varInfo with usageRanges :=
                varInfo.usageRanges ++ [⟨m.idx, m.idx + m.val.length⟩] },
            varCovered excl v := by
          intro v hvs
          rcases List.mem_or_eq_of_mem_set hvs with hv1 | rfl
          · exact hacc v hv1
          · rcases hacc varInfo (List.get?_mem hv) with ⟨hd, hu⟩
            refine ⟨hd, ?_⟩
            intro r hr
            dsimp only at hr
            rcases List.mem_append.mp hr with hr1 | hr1
            · exact hu r hr1
            · rcases List.mem_singleton.mp hr1 with rfl
              have hexf : isInExclusionRange m.idx m.len excl = false := by
                rcases hb2 : isInExclusionRange m.idx m.len excl
                · rfl
                · exact absurd (by rw [hb2]; rfl) hc1
              exact ⟨m.idx, m.len, hexf, by dsimp only; omega, by dsimp only; omega⟩
        split
        · exact hacc
        · split
          · split
            · exact hacc
            · exact hset
          · exact hset

theorem parseVariables_covered (text : List Char) (excl : List ExclusionRange)
    (measures : List (String × MeasureInfo)) :
    ∀ v ∈ parseVariables text excl measures, varCovered excl v := by
  unfold parseVariables
  dsimp only
  have hfold : ∀ ms : List (RawMatch (List Char)),
      (∀ m ∈ ms, identMatch text m.idx = some (m.len, m.val)) →
      ∀ vars, (∀ v ∈ vars, varCovered excl v) →
      ∀ v ∈ ms.foldl (varUsageStep text excl
          ((scanAll varDeclMatch text).foldl (varDeclStep text excl measures) ([], [])).2) vars,
        varCovered excl v := by
    intro ms
    induction ms with
    | nil =>
      intro _ vars hacc
      exact hacc
    | cons m rest ih =>
      intro hms vars hacc
      simp only [List.foldl_cons]
      exact ih (fun m2 hm2 => hms m2 (List.mem_cons_of_mem _ hm2)) _
        (varUsageStep_covered hacc (identMatch_spec (hms m (List.mem_cons_self _ _))))
  exact hfold (scanAll identMatch text) (scanAll_sound _ text) _
    (varDecls_covered _ (scanAll_sound _ text) _
      (fun v hv => absurd hv (List.not_mem_nil v)))

def tableCovered (excl : List ExclusionRange) (ti : TableInfo) : Prop :=
  ∀ r ∈ ti.usageRanges, rangeCovered excl r

theorem tableColStep_covered {text : List Char} {excl : List ExclusionRange}
    {acc : TablesAcc} {m : RawMatch TableColPayload}
    (hacc1 : ∀ q ∈ acc.tables, tableCovered excl q.2)
    (hacc2 : ∀ r ∈ acc.columnRanges, rangeCovered excl r)
    (hm : tableColMatch text m.idx = some (m.len, m.val)) :
    (∀ q ∈ (tableColStep text excl acc m).tables, tableCovered excl q.2) ∧
      (∀ r ∈ (tableColStep text excl acc m).columnRanges, rangeCovered excl r) := by
  unfold tableColStep
  by_cases hex : isInExclusionRange m.idx m.len excl = true
  · rw [if_pos hex]
    exact ⟨hacc1, hacc2⟩
  · rw [if_neg hex]
    dsimp only
    by_cases hg : (String.mk (trim m.val.rawName) = "" ∨ String.mk (trim m.val.content) = "")
    · rw [if_pos (by simpa using hg)]
      exact ⟨hacc1, hacc2⟩
    · rw [if_neg (by simpa using hg)]
      rcases tableColMatch_spec hm with ⟨hraw, hcol⟩
      have hexf : isInExclusionRange m.idx m.len excl = false := Bool.of_not_eq_true hex
      have hcne : trim m.val.content ≠ [] := by
        intro hnil
        exact hg (Or.inr (by rw [hnil]))
      have hcb : (strIndexOf (slice text m.idx m.len)
            (String.mk (trim m.val.content)).toList).getD 0
          + (String.mk (trim m.val.content)).length ≤ m.len := by
        have htl : (String.mk (trim m.val.content)).toList = trim m.val.content := rfl
        have hle : (String.mk (trim m.val.content)).length = (trim m.val.content).length := rfl
        rw [htl, hle]
        rcases hio : strIndexOf (slice text m.idx m.len) (trim m.val.content) with _ | j
        · simp only [Option.getD_none]
          omega
        · simp only [Option.getD_some]
          have h2 := strIndexOf_some_bound hcne hio
          have hsl := slice_length_le text m.idx m.len
          omega
      have ht1 : ∀ q ∈ (if assocHas (String.mk (trim m.val.rawName)) acc.tables
          then acc.tables
          else acc.tables ++ [(String.mk (trim m.val.rawName),
            { name := String.mk (trim m.val.rawName), usageRanges := [], columns := []
              scope := ⟨m.idx, m.idx + m.len⟩ })]), tableCovered excl q.2 := by
        split
        · exact hacc1
        · intro q hq
          rcases List.mem_append.mp hq with hq1 | hq1
          · exact hacc1 q hq1
          · rcases List.mem_singleton.mp hq1 with rfl
            unfold tableCovered
            intro r hr
            dsimp only at hr
            cases hr
      have ht2 : ∀ q ∈ assocUpdate (String.mk (trim m.val.rawName))
          (fun ti => { ti with columns :=
            if ti.columns.contains (String.mk (trim m.val.content)) then ti.columns
            else ti.columns ++ [String.mk (trim m.val.content)] })
          (if assocHas (String.mk (trim m.val.rawName)) acc.tables
          then acc.tables
          else acc.tables ++ [(String.mk (trim m.val.rawName),
            { name := String.mk (trim m.val.rawName), usageRanges := [], columns := []
              scope := ⟨m.idx, m.idx + m.len⟩ })]), tableCovered excl q.2 := by
        apply assocUpdate_forall ht1
        intro v hv
        unfold tableCovered at hv ⊢
        intro r hr
        dsimp only at hr
        exact hv r hr
      by_cases hc3 : acc.addedPositions.contains (m.idx + if m.val.quoted then 1 else 0) = true
      · rw [if_pos hc3]
        constructor
        · exact ht2
        · intro r hr
          dsimp only at hr
          rcases List.mem_append.mp hr with hr1 | hr1
          · exact hacc2 r hr1
          · rcases List.mem_singleton.mp hr1 with rfl
            exact ⟨m.idx, m.len, hexf, by dsimp only; omega, by dsimp only; omega⟩
      · rw [if_neg hc3]
        constructor
        · apply assocUpdate_forall ht2
          intro v hv
          unfold tableCovered at hv ⊢
          intro r hr
          dsimp only at hr
          rcases List.mem_append.mp hr with hr1 | hr1
          · exact hv r hr1
          · rcases List.mem_singleton.mp hr1 with rfl
            exact ⟨m.idx, m.len, hexf, by dsimp only; omega, by dsimp only; omega⟩
        · intro r hr
          dsimp only at hr
          rcases List.mem_append.mp hr with hr1 | hr1
          · exact hacc2 r hr1
          · rcases List.mem_singleton.mp hr1 with rfl
            exact ⟨m.idx, m.len, hexf, by dsimp only; omega, by dsimp only; omega⟩

theorem standaloneStep_covered {text : List Char} {excl : List ExclusionRange}
    {variablePositions : List Nat} {tableName : String}
    {acc : List (String × TableInfo) × List Nat} {m : RawMatch Unit}
    (hacc : ∀ q ∈ acc.1, tableCovered excl q.2) :
    ∀ q ∈ (standaloneStep text excl variablePositions tableName acc m).1,
      tableCovered excl q.2 := by
  unfold standaloneStep
  by_cases hc1 : (isInExclusionRange m.idx m.len excl || isInsideBrackets text m.idx) = true
  · rw [if_pos hc1]
    exact hacc
  · rw [if_neg hc1]
    dsimp only
    by_cases hc2 : (variablePositions.contains m.idx || acc.2.contains m.idx) = true
    · rw [if_pos hc2]
      exact hacc
    · rw [if_neg hc2]
      have hexf : isInExclusionRange m.idx m.len excl = false := by
        rcases hb2 : isInExclusionRange m.idx m.len excl
        · rfl
        · exact absurd (by rw [hb2]; rfl) hc1
      have hupd : ∀ q ∈ assocUpdate tableName
          (fun ti => { ti with usageRanges := ti.usageRanges ++ [⟨m.idx, m.idx + m.len⟩] })
          acc.1, tableCovered excl q.2 := by
        apply assocUpdate_forall hacc
        intro v hv
        unfold tableCovered at hv ⊢
        intro r hr
        dsimp only at hr
        rcases List.mem_append.mp hr with hr1 | hr1
        · exact hv r hr1
        · rcases List.mem_singleton.mp hr1 with rfl
          exact ⟨m.idx, m.len, hexf, by dsimp only; omega, by dsimp only; omega⟩
      split
      · split
        · exact hacc
        · dsimp only
          exact hupd
      · dsimp only
        exact hupd

theorem standaloneFold_covered {text : List Char} {excl : List ExclusionRange}
    {variablePositions : List Nat} (tableName : String) :
    ∀ ms : List (RawMatch Unit), ∀ acc : List (String × TableInfo) × List Nat,
      (∀ q ∈ acc.1, tableCovered excl q.2) →
      ∀ q ∈ (ms.foldl (standaloneStep text excl variablePositions tableName) acc).1,
        tableCovered excl q.2 := by
  intro ms
  induction ms with
  | nil =>
    intro acc hacc
    exact hacc
  | cons m rest ih =>
    intro acc hacc
    simp only [List.foldl_cons]
    exact ih _ (standaloneStep_covered hacc)

theorem parseStandalone_covered {text : List Char} {excl : List ExclusionRange}
    {variablePositions : List Nat} :
    ∀ names : List String, ∀ start : List (String × TableInfo) × List Nat,
      (∀ q ∈ start.1, tableCovered excl q.2) →
      ∀ q ∈ (names.foldl
        (fun acc tableName =>
          (scanAll (tableNameMatch tableName.toList) text).foldl
            (standaloneStep text excl variablePositions tableName) acc)
        start).1, tableCovered excl q.2 := by
  intro names
  induction names with
  | nil =>
    intro start hacc
    exact hacc
  | cons n rest ih =>
    intro start hacc
    simp only [List.foldl_cons]
    exact ih _ (standaloneFold_covered n _ _ hacc)

theorem tableColFold_covered {text : List Char} {excl : List ExclusionRange} :
    ∀ ms : List (RawMatch TableColPayload),
      (∀ m ∈ ms, tableColMatch text m.idx = some (m.len, m.val)) →
      ∀ acc : TablesAcc, (∀ q ∈ acc.tables, tableCovered excl q.2) →
        (∀ r ∈ acc.columnRanges, rangeCovered excl r) →
        (∀ q ∈ (ms.foldl (tableColStep text excl) acc).tables, tableCovered excl q.2) ∧
          (∀ r ∈ (ms.foldl (tableColStep text excl) acc).columnRanges,
            rangeCovered excl r) := by
  intro ms
  induction ms with
  | nil =>
    intro _ acc hacc1 hacc2
    exact ⟨hacc1, hacc2⟩
  | cons m rest ih =>
    intro hms acc hacc1 hacc2
    simp only [List.foldl_cons]
    rcases tableColStep_covered hacc1 hacc2 (hms m (List.mem_cons_self _ _)) with ⟨h1, h2⟩
    exact ih (fun m2 hm2 => hms m2 (List.mem_cons_of_mem _ hm2)) _ h1 h2

theorem parseTableColumns_covered (text : List Char) (excl : List ExclusionRange)
    (vars : List VariableInfo) :
    (∀ q ∈ (parseTableColumns text excl vars).1, tableCovered excl q.2) ∧
      (∀ r ∈ (parseTableColumns text excl vars).2, rangeCovered excl r) := by
  unfold parseTableColumns
  dsimp only
  rcases tableColFold_covered (scanAll tableColMatch text) (scanAll_sound _ text)
      { tables := [], addedPositions := [], columnRanges := [] }
      (fun q hq => absurd hq (List.not_mem_nil q))
      (fun r hr => absurd hr (List.not_mem_nil r)) with ⟨h1, h2⟩
  constructor
  · unfold parseStandaloneTableReferences
    exact parseStandalone_covered _ _ h1
  · exact h2


/-- C6: every declaration and reference range of every symbol emitted by a
parse (variables, tables, measures, columns) lies entirely outside every
reported exclusion range, under the overlap test
`start < e.stop ∧ stop > e.start`. -/
theorem C6_ranges_outside (kf : List String) (dp : List FunctionMetadata) (text : List Char) :
    ∀ r ∈ emittedSymbolRanges (parseDocument kf dp text),
      ∀ e ∈ (parseDocument kf dp text).exclusionRanges, rangeOutside r e := by
  intro r hr
  unfold parseDocument at hr ⊢
  dsimp only at hr ⊢
  unfold emittedSymbolRanges at hr
  dsimp only at hr
  have hcov : rangeCovered (findExclusionRanges text) r := by
    rcases List.mem_append.mp hr with hr1 | hr1
    · rcases List.mem_append.mp hr1 with hr2 | hr2
      · rcases List.mem_append.mp hr2 with hr3 | hr3
        · rcases List.mem_flatMap.mp hr3 with ⟨v, hv, hrv⟩
          rcases parseVariables_covered text (findExclusionRanges text)
            (parseMeasures text (findExclusionRanges text)) v hv with ⟨hd, hu⟩
          rcases List.mem_cons.mp hrv with rfl | hrv2
          · exact hd
          · exact hu r hrv2
        · rcases List.mem_flatMap.mp hr3 with ⟨q, hq, hrq⟩
          exact (parseTableColumns_covered text (findExclusionRanges text)
            (parseVariables text (findExclusionRanges text)
              (parseMeasures text (findExclusionRanges text)))).1 q hq r hrq
      · rcases List.mem_flatMap.mp hr2 with ⟨q, hq, hrq⟩
        exact parseMeasures_covered text (findExclusionRanges text) q hq r hrq
    · exact (parseTableColumns_covered text (findExclusionRanges text)
        (parseVariables text (findExclusionRanges text)
          (parseMeasures text (findExclusionRanges text)))).2 r hr1
  intro e he
  exact rangeCovered_outside hcov e he


/-- Witness text for the exclusion claim: a declaration followed by a line
comment. -/
def c6Text : List Char := ['V','A','R',' ','x',' ','=',' ','1',' ','/','/','c']

theorem C6_ranges_outside_witness :
    (⟨4, 5⟩ : Range) ∈ emittedSymbolRanges (parseDocument [] [] c6Text) ∧
      (⟨10, 13⟩ : ExclusionRange) ∈ (parseDocument [] [] c6Text).exclusionRanges ∧
      rangeOutside ⟨4, 5⟩ ⟨10, 13⟩ :=
  ⟨by decide, by decide,
    C6_ranges_outside [] [] c6Text ⟨4, 5⟩ (by decide) ⟨10, 13⟩ (by decide)⟩

end Dax
